import Mathlib

/-!
Shallow embedding of the dependency resolver of Factorio-Mod-Manager
(`src/resolver.py`) together with the version algebra and the requirement
grammar it depends on.  Python integers are modelled as `Int`, strings as
`String` (parsers work on `List Char`), dictionaries as association lists
with Python's replace-in-place / append-at-end update semantics, and the
generator-plus-exception control flow of the search as an explicit result
type.  The recursion of the search is driven by a fuel parameter so that
every definition is executable by kernel reduction.
-/

namespace Resolver

/-! ## Enumerations (`Prefix` and `Comparison` in the source)

The source's class is called `Prefix` with a field `prefix` on
`Requirement`; here the type is `Pfx` and the field `pfx`.
-/

inductive Pfx where
  | NONE
  | INCOMPATIBLE
  | OPTIONAL
  | HIDDEN_OPTIONAL
  | UNORDERED
deriving DecidableEq, Repr

inductive Comparison where
  | LT
  | LE
  | EQ
  | GE
  | GT
deriving DecidableEq, Repr

/-! ## Version

`Version.parts` is a tuple of Python ints; the constructor accepts any
integers, only `Version.parse` restricts them to `[0, 65535]`.
-/

structure Version where
  parts : List Int
deriving DecidableEq, Repr

/-- Python's lexicographic comparison of two lists of ints
(`a < b`, `a == b`, … in `Version.__cmp`'s comparator lambdas). -/
def listCmp : List Int → List Int → Ordering
  | [], [] => .eq
  | [], _ :: _ => .lt
  | _ :: _, [] => .gt
  | a :: as, b :: bs =>
    if a < b then .lt
    else if b < a then .gt
    else listCmp as bs

/-- `extend` inside `Version.__cmp`: right-pad with zeros to `length`. -/
def Version.extend (parts : List Int) (length : Nat) : List Int :=
  parts ++ List.replicate (length - parts.length) 0

/-- `Version.__cmp`: pad both parts lists to the common maximal length and
compare them with Python's list comparison. -/
def Version.cmp (a b : Version) : Ordering :=
  let length := max a.parts.length b.parts.length
  listCmp (Version.extend a.parts length) (Version.extend b.parts length)

def Version.lt (a b : Version) : Bool := Version.cmp a b = Ordering.lt
def Version.le (a b : Version) : Bool := Version.cmp a b ≠ Ordering.gt
def Version.veq (a b : Version) : Bool := Version.cmp a b = Ordering.eq
def Version.vne (a b : Version) : Bool := Version.cmp a b ≠ Ordering.eq
def Version.ge (a b : Version) : Bool := Version.cmp a b ≠ Ordering.lt
def Version.gt (a b : Version) : Bool := Version.cmp a b = Ordering.gt

/-! ## VersionComparison -/

structure VersionComparison where
  comparison : Comparison
  version : Version
deriving DecidableEq, Repr

/-- `VersionComparison.compare`: `cmp[self.comparison](version, self.version)`. -/
def VersionComparison.compare (vc : VersionComparison) (version : Version) : Bool :=
  match vc.comparison with
  | .LT => Version.lt version vc.version
  | .LE => Version.le version vc.version
  | .EQ => Version.veq version vc.version
  | .GE => Version.ge version vc.version
  | .GT => Version.gt version vc.version

/-! ## Requirement -/

structure Requirement where
  pfx : Pfx
  name : String
  vercomp : Option VersionComparison
deriving DecidableEq, Repr

/-- `Requirement.is_required`: prefix is `NONE` or `UNORDERED`. -/
def Requirement.is_required (r : Requirement) : Bool :=
  r.pfx = Pfx.NONE ∨ r.pfx = Pfx.UNORDERED

/-! ## PackageVersion and Package

A `PackageVersion` in the source holds a back-reference to its `Package`
and exposes `name` as the package's name; here the release carries the
name directly, which `mkPackage` (the `Package.__init__` of the source)
assigns from the owning package.
-/

structure PackageVersion where
  name : String
  version : Version
  dependencies : List Requirement
deriving DecidableEq, Repr

structure Package where
  name : String
  releases : List PackageVersion
deriving DecidableEq, Repr

/-- `Package.__init__`: build the releases from `(version, dependencies)`
pairs, each release carrying the package's name. -/
def mkPackage (name : String) (versions : List (Version × List Requirement)) : Package :=
  ⟨name, versions.map fun vd => ⟨name, vd.1, vd.2⟩⟩

/-- Python exceptions that `Package.get` / `Package.__getitem__` can raise. -/
inductive PyErr where
  | stopIteration
  | keyError
deriving DecidableEq, Repr

/-- `Package.get`: `res = next(pv for pv in self.releases if pv.version == version)`.
`next` is called without a default, so an empty match raises
`StopIteration`; the subsequent `if res is None: return default` can never
run (no release is `None`), so the `default` argument is dead. -/
def Package.get (p : Package) (version : Version)
    (dflt : Option PackageVersion) : Except PyErr (Option PackageVersion) :=
  match p.releases.find? (fun pv => Version.veq pv.version version) with
  | Option.none => Except.error PyErr.stopIteration
  | Option.some pv =>
    -- `if res is None: return default` — unreachable, kept for fidelity
    if False then Except.ok dflt else Except.ok (Option.some pv)

/-- `Package.__getitem__`: `get` with no default, raising `KeyError` on a
`None` result (also unreachable: `get` raises before returning `None`). -/
def Package.getitem (p : Package) (version : Version) : Except PyErr PackageVersion :=
  match Package.get p version Option.none with
  | Except.error e => Except.error e
  | Except.ok Option.none => Except.error PyErr.keyError
  | Except.ok (Option.some pv) => Except.ok pv

/-! ## String helpers for the parsers

Parsers work on `List Char`.  `pyStrip` / `pyLStrip` model Python's
`str.strip()` / `str.lstrip()` for ASCII whitespace (Python additionally
strips Unicode whitespace, which this model does not cover).
-/

def isPySpace (c : Char) : Bool :=
  c = ' ' ∨ c = '\t' ∨ c = '\n' ∨ c = '\x0d' ∨ c = '\x0b' ∨ c = '\x0c'

def pyLStrip (s : List Char) : List Char := s.dropWhile isPySpace

def pyRStrip (s : List Char) : List Char :=
  ((s.reverse).dropWhile isPySpace).reverse

def pyStrip (s : List Char) : List Char := pyRStrip (pyLStrip s)

/-- `s.split('.')` on a list of characters. -/
def splitDot : List Char → List (List Char)
  | [] => [[]]
  | c :: rest =>
    if c = '.' then [] :: splitDot rest
    else
      match splitDot rest with
      | [] => [[c]]
      | piece :: more => (c :: piece) :: more

def isAsciiDigit (c : Char) : Bool := '0' ≤ c ∧ c ≤ '9'

def digitVal (c : Char) : Nat := c.toNat - '0'.toNat

/-- Continuation of a digit run of a Python integer literal, after at
least one digit has been read (accumulated in `acc`): further ASCII
digits, with single underscores allowed between two digits (`1_0` is
valid, `_1`, `1_`, `1__0` are not). -/
def pyDigitsTail : Nat → List Char → Option Nat
  | acc, [] => Option.some acc
  | acc, '_' :: rest =>
    match rest with
    | [] => Option.none
    | c :: more =>
      if isAsciiDigit c then pyDigitsTail (acc * 10 + digitVal c) more
      else Option.none
  | acc, c :: rest =>
    if isAsciiDigit c then pyDigitsTail (acc * 10 + digitVal c) rest
    else Option.none

/-- Digit run of a Python integer literal after an optional sign: it
must start with an ASCII digit. -/
def pyDigitsVal (s : List Char) : Option Nat :=
  match s with
  | [] => Option.none
  | c :: rest =>
    if isAsciiDigit c then pyDigitsTail (digitVal c) rest
    else Option.none

/-- Is the character plain ASCII?  Statements about the version parser
are made for ASCII inputs, the fragment on which `pyInt` below models
Python's `int` exactly. -/
def isAsciiChar (c : Char) : Bool := c.toNat < 128

/-- Python's `int(s)` restricted to ASCII strings: optional surrounding
whitespace, an optional `+`/`-` sign, then a digit run with underscore
grouping.  Python additionally accepts Unicode decimal digits and
Unicode whitespace; this model does not cover those, so theorems about
the parser carry an ASCII hypothesis. -/
def pyInt (s : List Char) : Option Int :=
  let t := pyStrip s
  match t with
  | '+' :: rest => (pyDigitsVal rest).map (fun n => (n : Int))
  | '-' :: rest => (pyDigitsVal rest).map (fun n => -(n : Int))
  | _ => (pyDigitsVal t).map (fun n => (n : Int))

/-- `str_to_int` inside `Version.parse`: reject when stripping changes the
piece, parse with `int`, then range-check `0 ≤ i ≤ 65535`. -/
def str_to_int (s : List Char) : Option Int :=
  if pyStrip s ≠ s then Option.none
  else
    match pyInt s with
    | Option.none => Option.none
    | Option.some i =>
      if i < 0 ∨ 65535 < i then Option.none else Option.some i

/-- `list(map(f, ...))` with exception propagation: the first failing
element aborts the whole conversion. -/
def mapOption {α β : Type} (f : α → Option β) : List α → Option (List β)
  | [] => Option.some []
  | a :: as =>
    match f a with
    | Option.none => Option.none
    | Option.some b =>
      match mapOption f as with
      | Option.none => Option.none
      | Option.some bs => Option.some (b :: bs)

/-- `Version.parse`: split on `.`, convert every piece with `str_to_int`;
any failure raises (`none`). -/
def Version.parse (s : List Char) : Option Version :=
  (mapOption str_to_int (splitDot s)).map Version.mk

/-! ## Requirement.parse -/

/-- The version-comparison operator scan of `Requirement.parse`:
`<=` and `>=` before `<`, `>` and `=`; returns the operator and the rest. -/
def parseCompOp (s : List Char) : Option (Comparison × List Char) :=
  match s with
  | '<' :: '=' :: rest => Option.some (Comparison.LE, rest)
  | '>' :: '=' :: rest => Option.some (Comparison.GE, rest)
  | '<' :: rest => Option.some (Comparison.LT, rest)
  | '>' :: rest => Option.some (Comparison.GT, rest)
  | '=' :: rest => Option.some (Comparison.EQ, rest)
  | _ => Option.none

/-- The prefix scan of `Requirement.parse`: `!`, `?`, `(?)`, `~` in the
source's test order, defaulting to `NONE`. -/
def scanPfx (s : List Char) : Pfx × List Char :=
  if s.take 1 = ['!'] then (Pfx.INCOMPATIBLE, s.drop 1)
  else if s.take 1 = ['?'] then (Pfx.OPTIONAL, s.drop 1)
  else if s.take 3 = ['(', '?', ')'] then (Pfx.HIDDEN_OPTIONAL, s.drop 3)
  else if s.take 1 = ['~'] then (Pfx.UNORDERED, s.drop 1)
  else (Pfx.NONE, s)

/-- The part of `Requirement.parse` after the prefix scan: left-strip;
the name is the stripped longest run of characters not in `<=>` and must
be nonempty; whatever remains must be a comparison operator followed by a
parsable version; a parsed version comparison is dropped when the prefix
is `INCOMPATIBLE`. -/
def Requirement.parseCore (pfx : Pfx) (s0 : List Char) : Option Requirement :=
  let s := pyLStrip s0
  let name := pyStrip (s.takeWhile (fun c => ¬ (c = '<' ∨ c = '=' ∨ c = '>')))
  let s := s.drop name.length
  if name = [] then Option.none
  else
    let s := pyLStrip s
    if s = [] then Option.some ⟨pfx, String.mk name, Option.none⟩
    else
      match parseCompOp s with
      | Option.none => Option.none
      | Option.some (comp, s) =>
        let s := pyLStrip s
        match Version.parse s with
        | Option.none => Option.none
        | Option.some version =>
          let vercomp := Option.some (VersionComparison.mk comp version)
          -- "Doesn't really make sense" — an INCOMPATIBLE requirement
          -- drops its version comparison at parse time.
          let vercomp := if pfx = Pfx.INCOMPATIBLE then Option.none else vercomp
          Option.some ⟨pfx, String.mk name, vercomp⟩

/-- `Requirement.parse`: strip, scan the prefix, then parse name and
optional version comparison. -/
def Requirement.parse (input : List Char) : Option Requirement :=
  let s := pyStrip input
  Requirement.parseCore (scanPfx s).1 (scanPfx s).2

/-! ## The resolver (`PackageProvider.resolve` and its inner `search`)

The provider is the static variant (`StaticPackageProvider`): a list of
packages with linear lookup by name.  `find` raising `StopIteration`
(an uncaught provider failure) is modelled as `none`.
-/

/-- A constraint predicate, as stored in the `reqs` chain map. -/
abbrev Pred : Type := PackageVersion → Bool

/-- One scope of the chain map. -/
abbrev Layer : Type := List (String × Pred)

/-- The layered `reqs` mapping: newest scope first, like `ChainMap`. -/
abbrev Reqs : Type := List Layer

/-- The `selected` dict: name → chosen release, in insertion order. -/
abbrev Sel : Type := List (String × PackageVersion)

/-- Python dict update: replace the value in place when the key exists,
otherwise append the binding at the end. -/
def dictInsert {α : Type} : List (String × α) → String → α → List (String × α)
  | [], key, v => [(key, v)]
  | kv :: rest, key, v =>
    if kv.1 = key then (key, v) :: rest
    else kv :: dictInsert rest key v

/-- Python dict lookup. -/
def dictFind? {α : Type} : List (String × α) → String → Option α
  | [], _ => Option.none
  | kv :: rest, key => if kv.1 = key then Option.some kv.2 else dictFind? rest key

/-- `del d[key]`: drop the (unique) binding for `key`. -/
def dictDel {α : Type} : List (String × α) → String → List (String × α)
  | [], _ => []
  | kv :: rest, key => if kv.1 = key then rest else kv :: dictDel rest key

/-- `ChainMap.get`: first layer holding the key wins. -/
def reqsGet (reqs : Reqs) (key : String) : Option Pred :=
  match reqs with
  | [] => Option.none
  | layer :: outer =>
    match dictFind? layer key with
    | Option.some f => Option.some f
    | Option.none => reqsGet outer key

/-- Writing `newreqs[name] = f` goes to the newest layer. -/
def reqsSetTop (reqs : Reqs) (key : String) (f : Pred) : Reqs :=
  match reqs with
  | [] => [[(key, f)]]
  | layer :: outer => dictInsert layer key f :: outer

/-- `StaticPackageProvider.find`: first package with the name; `none`
models the uncaught `StopIteration` of `next` on a miss. -/
def find? (prov : List Package) (name : String) : Option Package :=
  prov.find? (fun p => p.name = name)

/-- `if prev and not prev(pkgver)`: a present prior predicate that
rejects the release. -/
def prevFails : Option Pred → PackageVersion → Bool
  | Option.some p, pkgver => ¬ p pkgver
  | Option.none, _ => false

/-- `requirement_to_fun`'s inner `is_compatible`.  The source guard
`if req.parse == Prefix.INCOMPATIBLE:` compares the `parse` static method
with an enum member and is therefore never true; the branch is omitted
here (its `return req.name != pkgver.name` is dead code). -/
def requirement_to_fun (req : Requirement) (prev : Option Pred) : Pred :=
  fun pkgver =>
    if prevFails prev pkgver then false
    else if ¬ (pkgver.name = req.name) then true
    else
      match req.vercomp with
      | Option.none => true
      | Option.some vc => VersionComparison.compare vc pkgver.version

/-- Stable insertion into a descending run: `a` goes before the first
element it is not strictly below.  Used to model Python's stable
`sorted(key=..., reverse=True)`. -/
def insertDesc (a : PackageVersion) : List PackageVersion → List PackageVersion
  | [] => [a]
  | b :: bs =>
    if Version.lt a.version b.version then b :: insertDesc a bs
    else a :: b :: bs

/-- `sorted(versions, key=lambda pkgver: pkgver.version, reverse=True)`:
the unique stable descending reordering by version. -/
def sortDesc : List PackageVersion → List PackageVersion
  | [] => []
  | a :: as => insertDesc a (sortDesc as)

/-- Outcome of the search.  `ok` is the first `yield`; `inconsistent` is
an escaping `InconsistentRequirements`; `providerError` a `find` failure
(`StopIteration`); `assertFailed` the final self-check `assert` failing;
`outOfFuel` means the modelling fuel ran out (no Python counterpart). -/
inductive SResult (α : Type) where
  | ok (value : α)
  | inconsistent
  | providerError
  | assertFailed
  | outOfFuel
deriving DecidableEq, Repr

/-- Step 1 of a candidate: check the candidate's dependencies against the
already-selected packages (`requirement_to_fun(dep, None)(selected[dep.name])`). -/
def forwardCheck (selected : Sel) (pkgver : PackageVersion) : Bool :=
  pkgver.dependencies.all fun dep =>
    match dictFind? selected dep.name with
    | Option.some chosen => requirement_to_fun dep Option.none chosen
    | Option.none => true

/-- Step 2: the new chain-map layer
`{dep.name: requirement_to_fun(dep, reqs.get(dep.name)) for dep in deps}`.
A dict comprehension lets a later dependency with the same name overwrite
an earlier one; `prev` is looked up in the outer chain either way. -/
def buildLayer (reqs : Reqs) (deps : List Requirement) : Layer :=
  deps.foldl
    (fun layer dep =>
      dictInsert layer dep.name (requirement_to_fun dep (reqsGet reqs dep.name)))
    []

/-- Step 4: find the packages for the required dependencies not yet
selected; a `find` miss is a provider error. -/
def pushFinds (prov : List Package) (selected : Sel) (deps : List Requirement) :
    Option (List Package) :=
  mapOption (fun dep => find? prov dep.name)
    (deps.filter fun dep =>
      Requirement.is_required dep ∧ (dictFind? selected dep.name).isNone)

/-- The loop `for pkgver in versions` of `search`, parameterised by the
recursive call `rec` already specialised to the smaller fuel.

Per candidate: a failing forward check raises `InconsistentRequirements`
— and in the source that `raise` sits *outside* the `try` of this frame,
so it escapes the whole loop instead of moving to the next candidate.
Otherwise push the new layer, lock the package's version, extend the
worklist, record the selection and recurse; only an
`InconsistentRequirements` coming back from the recursion is caught and
turned into a move to the next candidate.  An exhausted loop raises. -/
def goCands (rec : List Package → Reqs → Sel → SResult Sel)
    (prov : List Package) (rest : List Package) (reqs : Reqs) (selected : Sel)
    (package : Package) : List PackageVersion → SResult Sel
  | [] => SResult.inconsistent
  | pkgver :: more =>
    if forwardCheck selected pkgver then
      let newreqs := buildLayer reqs pkgver.dependencies :: reqs
      let newreqs := reqsSetTop newreqs package.name
        (fun pv => Version.veq pv.version pkgver.version)
      match pushFinds prov selected pkgver.dependencies with
      | Option.none => SResult.providerError
      | Option.some pushed =>
        let newpackages := rest ++ pushed
        let newselected := dictInsert selected package.name pkgver
        match rec newpackages newreqs newselected with
        | SResult.ok s => SResult.ok s
        | SResult.inconsistent =>
          goCands rec prov rest reqs selected package more
        | SResult.providerError => SResult.providerError
        | SResult.assertFailed => SResult.assertFailed
        | SResult.outOfFuel => SResult.outOfFuel
    else SResult.inconsistent

/-- The final self-check when the worklist is empty:
`assert all(reqs.get(s.name, lambda _: True)(s) for s in selected.values())`. -/
def finalAssert (reqs : Reqs) (selected : Sel) : Bool :=
  selected.all fun nv =>
    match reqsGet reqs nv.2.name with
    | Option.some f => f nv.2
    | Option.none => true

/-- `search`.  An empty worklist runs the self-check and yields
`selected`; otherwise pop the last package (the worklist is a stack),
filter its releases by the current predicate for its name, stable-sort
them newest first, and try the candidates in order. -/
def search (prov : List Package) : Nat → List Package → Reqs → Sel → SResult Sel
  | 0, _, _, _ => SResult.outOfFuel
  | fuel + 1, packages, reqs, selected =>
    match packages.getLast? with
    | Option.none =>
      if finalAssert reqs selected then SResult.ok selected
      else SResult.assertFailed
    | Option.some package =>
      let rest := packages.dropLast
      let pred : Pred :=
        match reqsGet reqs package.name with
        | Option.some f => f
        | Option.none => fun _ => true
      let versions := sortDesc (package.releases.filter pred)
      goCands (search prov fuel) prov rest reqs selected package versions

/-- The name of the synthetic root package. -/
def rootName : String := "$root"

/-- `PackageProvider.resolve`: wrap the roots in a synthetic `$root`
package at version `0.0.0`, run the search, and strip `$root` from the
first solution.  The `if result is None` branch of the source is dead
(`next` raises instead of returning `None`). -/
def resolve (prov : List Package) (fuel : Nat) (requirements : List Requirement) :
    SResult (List PackageVersion) :=
  let root := mkPackage rootName [(Version.mk [0, 0, 0], requirements)]
  match search prov fuel [root] [[]] [] with
  | SResult.ok selected => SResult.ok ((dictDel selected rootName).map (fun nv => nv.2))
  | SResult.inconsistent => SResult.inconsistent
  | SResult.providerError => SResult.providerError
  | SResult.assertFailed => SResult.assertFailed
  | SResult.outOfFuel => SResult.outOfFuel

end Resolver

namespace Resolver

/-! Sanity instances used while developing (kept as `example`s). -/

example : Version.veq ⟨[1]⟩ ⟨[1, 0]⟩ = true := by decide

example : Version.lt ⟨[1, 9]⟩ ⟨[1, 10]⟩ = true := by decide

example : Version.parse "1.2.3".toList = Option.some ⟨[1, 2, 3]⟩ := by decide

example : Version.parse "".toList = Option.none := by decide

example : Version.parse " 0.0.0".toList = Option.none := by decide

example : Version.parse "1.2.65536".toList = Option.none := by decide

example : Version.parse "-1.2.3".toList = Option.none := by decide

example : Version.parse "+5".toList = Option.some ⟨[5]⟩ := by decide

example : Version.parse "1_0".toList = Option.some ⟨[10]⟩ := by decide

example : Requirement.parse "mod-a".toList = Option.some ⟨Pfx.NONE, "mod-a", Option.none⟩ := by
  decide

example : Requirement.parse "? mod-c > 0.4.3".toList =
    Option.some ⟨Pfx.OPTIONAL, "mod-c",
      Option.some ⟨Comparison.GT, ⟨[0, 4, 3]⟩⟩⟩ := by decide

example : Requirement.parse "! mod > 1.2.3".toList =
    Option.some ⟨Pfx.INCOMPATIBLE, "mod", Option.none⟩ := by decide

example : Requirement.parse "my mod > 1.2.3".toList =
    Option.some ⟨Pfx.NONE, "my mod",
      Option.some ⟨Comparison.GT, ⟨[1, 2, 3]⟩⟩⟩ := by decide

example : Requirement.parse "?mod<1.2.3".toList =
    Option.some ⟨Pfx.OPTIONAL, "mod",
      Option.some ⟨Comparison.LT, ⟨[1, 2, 3]⟩⟩⟩ := by decide

example : Requirement.parse "(?) a".toList =
    Option.some ⟨Pfx.HIDDEN_OPTIONAL, "a", Option.none⟩ := by decide

example : Requirement.parse "~ a".toList =
    Option.some ⟨Pfx.UNORDERED, "a", Option.none⟩ := by decide

example : Requirement.parse "mod < 1.2.3 > 4.5.6".toList = Option.none := by decide

example : Requirement.parse " mod < 1.2.3 ".toList =
    Option.some ⟨Pfx.NONE, "mod",
      Option.some ⟨Comparison.LT, ⟨[1, 2, 3]⟩⟩⟩ := by decide

end Resolver

namespace Resolver

/-! ## Concrete fixtures: the resolver scenarios of the specification -/

/-- A plain required root/dependency on `name`. -/
def reqN (name : String) : Requirement := ⟨Pfx.NONE, name, Option.none⟩

/-- An `INCOMPATIBLE` dependency on `name`. -/
def reqBang (name : String) : Requirement := ⟨Pfx.INCOMPATIBLE, name, Option.none⟩

/-- A required dependency on `name` at exactly `v`. -/
def reqEq (name : String) (v : Version) : Requirement :=
  ⟨Pfx.NONE, name, Option.some ⟨Comparison.EQ, v⟩⟩

def v000 : Version := ⟨[0, 0, 0]⟩
def v100 : Version := ⟨[1, 0, 0]⟩
def v200 : Version := ⟨[2, 0, 0]⟩

/-- Scenario 1 (trivial): `a@0.0.0`, `b@0.0.0 (deps: a)`. -/
def univTrivial : List Package :=
  [mkPackage "a" [(v000, [])],
   mkPackage "b" [(v000, [reqN "a"])]]

/-- Scenario 3 (backtrack past newest): `a@0.0.0 (deps: b, c)`,
`b@1.0.0 (deps: c = 1.0.0)`, `b@0.0.0`, `c@0.0.0`. -/
def univBacktrack : List Package :=
  [mkPackage "a" [(v000, [reqN "b", reqN "c"])],
   mkPackage "b" [(v100, [reqEq "c" v100]), (v000, [])],
   mkPackage "c" [(v000, [])]]

/-- Scenario 4 (incompatible): `a@0.0.0 (deps: ! b)`, `b@0.0.0`. -/
def univIncompat : List Package :=
  [mkPackage "a" [(v000, [reqBang "b"])],
   mkPackage "b" [(v000, [])]]

/-- Scenario 5 (cycle): `a@0.0.0 (deps: b)`, `b@0.0.0 (deps: a)`. -/
def univCycle : List Package :=
  [mkPackage "a" [(v000, [reqN "b"])],
   mkPackage "b" [(v000, [reqN "a"])]]

/-- A release with two same-name dependencies: `a@0.0.0
(deps: b = 1.0.0, b = 2.0.0)`, `b@{1,2}.0.0`. -/
def univDupDeps : List Package :=
  [mkPackage "a" [(v000, [reqEq "b" v100, reqEq "b" v200])],
   mkPackage "b" [(v100, []), (v200, [])]]

example : resolve univTrivial 10 [reqN "a"] =
    SResult.ok [⟨"a", v000, []⟩] := by decide

example : resolve univTrivial 10 [reqN "b"] =
    SResult.ok [⟨"b", v000, [reqN "a"]⟩, ⟨"a", v000, []⟩] := by decide

example : resolve univTrivial 10
    [⟨Pfx.NONE, "b", Option.some ⟨Comparison.GE, v100⟩⟩] =
    SResult.inconsistent := by decide

example : resolve univIncompat 10 [reqN "a", reqN "b"] =
    SResult.ok [⟨"b", v000, []⟩, ⟨"a", v000, [reqBang "b"]⟩] := by decide

example : resolve univIncompat 10 [reqN "a"] =
    SResult.ok [⟨"a", v000, [reqBang "b"]⟩] := by decide

example : resolve univBacktrack 10 [reqN "a"] = SResult.inconsistent := by decide

example : resolve univCycle 10 [reqN "a"] =
    SResult.ok [⟨"a", v000, [reqN "b"]⟩, ⟨"b", v000, [reqN "a"]⟩] := by decide

example : resolve univDupDeps 10 [reqN "a"] =
    SResult.ok [⟨"a", v000, [reqEq "b" v100, reqEq "b" v200]⟩,
      ⟨"b", v200, []⟩] := by decide

/-! ## Claim-side definitions

These follow the words of the specification's claims, to be compared with
the behaviour of the embedded code.
-/

/-- `true` when the result is a definite outcome rather than fuel
exhaustion (the latter has no Python counterpart). -/
def SResult.isSettled {α : Type} : SResult α → Bool
  | SResult.outOfFuel => false
  | _ => true

/-- No string occurs twice. -/
def allDistinct : List String → Bool
  | [] => true
  | x :: xs => if xs.contains x then false else allDistinct xs

/-- A dependency's version constraint against a candidate version. -/
def vercompOK (d : Requirement) (v : Version) : Bool :=
  match d.vercomp with
  | Option.none => true
  | Option.some vc => VersionComparison.compare vc v

/-- Claim-side satisfaction of a single requirement by a set `S` of
releases: a required name must be present with a matching version, an
incompatible name must be absent, an optional name must match the
constraint when present. -/
def depSatisfied (S : List PackageVersion) (d : Requirement) : Bool :=
  match d.pfx with
  | Pfx.INCOMPATIBLE => S.all fun v => ¬ (v.name = d.name)
  | Pfx.NONE | Pfx.UNORDERED =>
    S.any fun v => v.name = d.name ∧ vercompOK d v.version
  | _ => S.all fun v => ¬ (v.name = d.name) ∨ vercompOK d v.version

/-- Claim-side (C4): `S` is a consistent assignment for the given roots —
one release per package name, all drawn from the provider, satisfying
every root and every dependency of every member. -/
def isSolution (prov : List Package) (roots : List Requirement)
    (S : List PackageVersion) : Bool :=
  allDistinct (S.map PackageVersion.name) ∧
  (S.all fun v => prov.any fun p => p.name = v.name ∧ p.releases.contains v) ∧
  roots.all (depSatisfied S) ∧
  S.all fun v => v.dependencies.all (depSatisfied S)

/-- Claim-side (C5): the claimed postcondition of a successful
resolution — names pairwise distinct, and every required-triggering
dependency of every member matched inside `S`. -/
def c5Post (S : List PackageVersion) : Bool :=
  allDistinct (S.map PackageVersion.name) &&
  S.all fun v => v.dependencies.all fun d =>
    if Requirement.is_required d then
      S.any fun w => if w.name = d.name then vercompOK d w.version else false
    else true

/-- Claim-side (C6): the claimed failure condition of `Version.parse`,
read literally — some piece has leading/trailing whitespace or a
non-digit character, or an (all-digit) component exceeds 65535, or the
whole string is empty. -/
def c6ClaimFail (s : List Char) : Bool :=
  (splitDot s).any (fun p =>
    (if pyStrip p = p then false else true) ||
    p.any (fun c => ¬ isAsciiDigit c) ||
    (match pyDigitsVal p with
     | Option.some n => 65535 < n
     | Option.none => false)) ||
  (if s = [] then true else false)

/-- Amended failure condition for C6, for ASCII pieces: a piece fails
exactly when it has leading or trailing whitespace, is not an
optionally-signed underscore-grouped digit run, or its value is negative
or greater than 65535.  (On non-ASCII pieces Python's `int` also accepts
Unicode decimal digits — outside the scope of the amended statement.) -/
def c6PieceFail (p : List Char) : Bool :=
  (if pyStrip p = p then false else true) ||
  (match pyInt p with
   | Option.none => true
   | Option.some i => i < 0 ∨ 65535 < i)

/-- Amended failure condition for C6 on the whole input. -/
def c6AmendFail (s : List Char) : Bool :=
  (splitDot s).any c6PieceFail

end Resolver

namespace Resolver

/-! ## Version algebra lemmas

`listCmpZ` is a padding-free normal form of the padded comparison: it
compares the two parts lists as if both were extended with infinitely
many zeros.  `Version.cmp` agrees with it, which gives congruence of all
comparisons under `Version.veq`.
-/

/-- Comparison of two int lists, implicitly zero-padded on the right. -/
def listCmpZ : List Int → List Int → Ordering
  | [], [] => .eq
  | [], b :: bs =>
    if 0 < b then .lt else if b < 0 then .gt else listCmpZ [] bs
  | a :: as, [] =>
    if a < 0 then .lt else if 0 < a then .gt else listCmpZ as []
  | a :: as, b :: bs =>
    if a < b then .lt else if b < a then .gt else listCmpZ as bs

theorem extend_nil (N : Nat) : Version.extend [] N = List.replicate N 0 := by
  simp [Version.extend]

theorem extend_cons (a : Int) (as : List Int) (N : Nat) :
    Version.extend (a :: as) (N + 1) = a :: Version.extend as N := by
  simp [Version.extend, List.replicate, Nat.succ_sub_succ]

theorem extend_of_length_le {xs : List Int} {N : Nat} (h : N ≤ xs.length) :
    Version.extend xs N = xs := by
  simp [Version.extend, Nat.sub_eq_zero_of_le h]

theorem extend_length (xs : List Int) (N : Nat) (h : xs.length ≤ N) :
    (Version.extend xs N).length = N := by
  simp [Version.extend]
  omega

theorem listCmp_eq_iff (xs ys : List Int) : listCmp xs ys = .eq ↔ xs = ys := by
  induction xs generalizing ys with
  | nil => cases ys <;> simp [listCmp]
  | cons a as ih =>
    cases ys with
    | nil => simp [listCmp]
    | cons b bs =>
      simp only [listCmp]
      by_cases hab : a < b
      · simp [hab]
        intro h
        omega
      · by_cases hba : b < a
        · simp [hab, hba]
          intro h
          omega
        · have : a = b := by omega
          subst this
          simp [hab, hba, ih bs]

theorem listCmp_lt_iff (xs ys : List Int) :
    listCmp xs ys = .lt ↔ List.Lex (· < ·) xs ys := by
  induction xs generalizing ys with
  | nil =>
    cases ys with
    | nil =>
      constructor
      · intro h
        exact absurd h (by decide)
      · intro h
        cases h
    | cons b bs =>
      constructor
      · intro _
        exact List.Lex.nil
      · intro _
        rfl
  | cons a as ih =>
    cases ys with
    | nil =>
      constructor
      · intro h
        rw [(by simp [listCmp] : listCmp (a :: as) [] = Ordering.gt)] at h
        exact absurd h (by decide)
      · intro h
        cases h
    | cons b bs =>
      by_cases hab : a < b
      · have hstep : listCmp (a :: as) (b :: bs) = .lt := by simp [listCmp, hab]
        rw [hstep]
        constructor
        · intro _
          exact List.Lex.rel hab
        · intro _
          rfl
      · by_cases hba : b < a
        · have hstep : listCmp (a :: as) (b :: bs) = .gt := by simp [listCmp, hab, hba]
          rw [hstep]
          constructor
          · intro h
            exact absurd h (by decide)
          · intro h
            cases h with
            | rel h' => omega
            | cons h' => omega
        · have hable : a = b := by omega
          subst hable
          have hstep : listCmp (a :: as) (a :: bs) = listCmp as bs := by
            simp [listCmp]
          rw [hstep, ih bs]
          constructor
          · intro h
            exact List.Lex.cons h
          · intro h
            cases h with
            | rel h' => omega
            | cons h' => exact h'

theorem listCmp_gt_iff (xs ys : List Int) :
    listCmp xs ys = .gt ↔ List.Lex (· < ·) ys xs := by
  induction xs generalizing ys with
  | nil =>
    cases ys with
    | nil =>
      constructor
      · intro h
        exact absurd h (by decide)
      · intro h
        cases h
    | cons b bs =>
      constructor
      · intro h
        rw [(by simp [listCmp] : listCmp [] (b :: bs) = Ordering.lt)] at h
        exact absurd h (by decide)
      · intro h
        cases h
  | cons a as ih =>
    cases ys with
    | nil =>
      constructor
      · intro _
        exact List.Lex.nil
      · intro _
        rfl
    | cons b bs =>
      by_cases hab : a < b
      · have hstep : listCmp (a :: as) (b :: bs) = .lt := by simp [listCmp, hab]
        rw [hstep]
        constructor
        · intro h
          exact absurd h (by decide)
        · intro h
          cases h with
          | rel h' => omega
          | cons h' => omega
      · by_cases hba : b < a
        · have hstep : listCmp (a :: as) (b :: bs) = .gt := by simp [listCmp, hab, hba]
          rw [hstep]
          constructor
          · intro _
            exact List.Lex.rel hba
          · intro _
            rfl
        · have hable : a = b := by omega
          subst hable
          have hstep : listCmp (a :: as) (a :: bs) = listCmp as bs := by
            simp [listCmp]
          rw [hstep, ih bs]
          constructor
          · intro h
            exact List.Lex.cons h
          · intro h
            cases h with
            | rel h' => omega
            | cons h' => exact h'

theorem padCmp_eq_listCmpZ :
    ∀ (N : Nat) (xs ys : List Int), xs.length ≤ N → ys.length ≤ N →
      listCmp (Version.extend xs N) (Version.extend ys N) = listCmpZ xs ys := by
  intro N
  induction N with
  | zero =>
    intro xs ys hx hy
    have hx' : xs = [] := List.length_eq_zero.mp (Nat.le_zero.mp hx)
    have hy' : ys = [] := List.length_eq_zero.mp (Nat.le_zero.mp hy)
    subst hx'
    subst hy'
    simp [Version.extend, listCmp, listCmpZ]
  | succ N ih =>
    intro xs ys hx hy
    cases xs with
    | nil =>
      cases ys with
      | nil =>
        rw [extend_nil, List.replicate_succ]
        simp only [listCmp]
        have := ih [] [] (by simp) (by simp)
        rw [extend_nil] at this
        simpa using this
      | cons b bs =>
        rw [extend_nil, List.replicate_succ, extend_cons]
        simp only [listCmp, listCmpZ]
        have := ih [] bs (by simp) (by simpa using Nat.lt_succ_iff.mp (Nat.lt_of_lt_of_le (Nat.lt_succ_self _) (by simpa using hy)))
        rw [extend_nil] at this
        by_cases h1 : (0 : Int) < b
        · simp [h1]
        · by_cases h2 : b < 0
          · simp [h1, h2]
          · simp [h1, h2, this]
    | cons a as =>
      cases ys with
      | nil =>
        rw [extend_cons, extend_nil, List.replicate_succ]
        simp only [listCmp, listCmpZ]
        have := ih as [] (by simpa using Nat.lt_succ_iff.mp (Nat.lt_of_lt_of_le (Nat.lt_succ_self _) (by simpa using hx))) (by simp)
        rw [extend_nil] at this
        by_cases h1 : a < 0
        · simp [h1]
        · by_cases h2 : (0 : Int) < a
          · simp [h1, h2]
          · simp [h1, h2, this]
      | cons b bs =>
        rw [extend_cons, extend_cons]
        simp only [listCmp, listCmpZ]
        have := ih as bs (by simpa using Nat.lt_succ_iff.mp (Nat.lt_of_lt_of_le (Nat.lt_succ_self _) (by simpa using hx)))
          (by simpa using Nat.lt_succ_iff.mp (Nat.lt_of_lt_of_le (Nat.lt_succ_self _) (by simpa using hy)))
        by_cases h1 : a < b
        · simp [h1]
        · by_cases h2 : b < a
          · simp [h1, h2]
          · simp [h1, h2, this]

theorem cmp_eq_listCmpZ (a b : Version) :
    Version.cmp a b = listCmpZ a.parts b.parts := by
  unfold Version.cmp
  exact padCmp_eq_listCmpZ _ a.parts b.parts (Nat.le_max_left _ _) (Nat.le_max_right _ _)

theorem extend_extend {xs : List Int} {L N : Nat} (h1 : xs.length ≤ L) (h2 : L ≤ N) :
    Version.extend (Version.extend xs L) N = Version.extend xs N := by
  unfold Version.extend
  rw [List.length_append, List.length_replicate, List.append_assoc,
    List.append_cancel_left_eq, ← List.replicate_add]
  congr 1
  omega

/-- Padded-equal versions compare identically against every third
version (left congruence of `Version.cmp`). -/
theorem cmp_congr_left {u w : Version} (h : Version.veq u w = true) (t : Version) :
    Version.cmp u t = Version.cmp w t := by
  unfold Version.veq at h
  have hcmp : Version.cmp u w = Ordering.eq := by
    revert h
    cases Version.cmp u w <;> simp
  set L0 := max u.parts.length w.parts.length with hL0
  have hext : Version.extend u.parts L0 = Version.extend w.parts L0 := by
    have := (listCmp_eq_iff (Version.extend u.parts L0) (Version.extend w.parts L0)).mp
    exact this hcmp
  set N := max L0 t.parts.length with hN
  have hu : u.parts.length ≤ L0 := Nat.le_max_left _ _
  have hw : w.parts.length ≤ L0 := Nat.le_max_right _ _
  have hL0N : L0 ≤ N := Nat.le_max_left _ _
  have htN : t.parts.length ≤ N := Nat.le_max_right _ _
  have huN : u.parts.length ≤ N := Nat.le_trans hu hL0N
  have hwN : w.parts.length ≤ N := Nat.le_trans hw hL0N
  rw [cmp_eq_listCmpZ, cmp_eq_listCmpZ]
  rw [← padCmp_eq_listCmpZ N u.parts t.parts huN htN,
    ← padCmp_eq_listCmpZ N w.parts t.parts hwN htN]
  rw [← extend_extend hu hL0N, hext, extend_extend hw hL0N]

/-- Padded-equal versions satisfy the same version comparisons. -/
theorem compare_congr {u w : Version} (h : Version.veq u w = true)
    (vc : VersionComparison) :
    VersionComparison.compare vc u = VersionComparison.compare vc w := by
  unfold VersionComparison.compare
  cases vc.comparison <;>
    simp only [Version.lt, Version.le, Version.veq, Version.ge, Version.gt,
      cmp_congr_left h]

/-- `vercompOK` only depends on the padded equivalence class of the
candidate version. -/
theorem vercompOK_congr {u w : Version} (h : Version.veq u w = true)
    (d : Requirement) : vercompOK d u = vercompOK d w := by
  unfold vercompOK
  cases d.vercomp with
  | none => rfl
  | some vc => exact compare_congr h vc

/-! ## Dictionary and list lemmas -/

theorem dictFind?_dictInsert {α : Type} (m : List (String × α)) (k : String)
    (v : α) (n : String) :
    dictFind? (dictInsert m k v) n =
      if k = n then Option.some v else dictFind? m n := by
  induction m with
  | nil =>
    by_cases h : k = n <;> simp [dictInsert, dictFind?, h]
  | cons kv rest ih =>
    by_cases hk : kv.1 = k
    · simp only [dictInsert, if_pos hk, dictFind?]
      by_cases hn : k = n
      · rw [if_pos hn, if_pos hn]
      · rw [if_neg hn, if_neg hn, if_neg (fun hc => hn (hk ▸ hc))]
    · simp only [dictInsert, if_neg hk, dictFind?]
      by_cases hn : kv.1 = n
      · have hkn : ¬ k = n := fun hc => hk (hn.trans hc.symm)
        rw [if_pos hn, if_neg hkn, if_pos hn]
      · rw [if_neg hn, ih]
        by_cases hkn : k = n
        · rw [if_pos hkn, if_pos hkn]
        · rw [if_neg hkn, if_neg hkn, if_neg hn]

theorem mapOption_mem_right {α β : Type} (f : α → Option β) (l : List α)
    (l' : List β) (h : mapOption f l = Option.some l') (b : β) (hb : b ∈ l') :
    ∃ a ∈ l, f a = Option.some b := by
  induction l generalizing l' with
  | nil =>
    simp only [mapOption] at h
    obtain rfl := Option.some.inj h
    cases hb
  | cons a as ih =>
    simp only [mapOption] at h
    cases hfa : f a with
    | none => rw [hfa] at h; exact Option.noConfusion h
    | some bhd =>
      rw [hfa] at h
      cases hrest : mapOption f as with
      | none => rw [hrest] at h; exact Option.noConfusion h
      | some bs =>
        rw [hrest] at h
        obtain rfl := Option.some.inj h
        cases hb with
        | head => exact ⟨a, by simp, hfa⟩
        | tail _ hmem =>
          obtain ⟨x, hx, hfx⟩ := ih bs hrest hmem
          exact ⟨x, by simp [hx], hfx⟩

theorem mapOption_length {α β : Type} (f : α → Option β) (l : List α)
    (l' : List β) (h : mapOption f l = Option.some l') : l'.length = l.length := by
  induction l generalizing l' with
  | nil =>
    simp only [mapOption] at h
    obtain rfl := Option.some.inj h
    rfl
  | cons a as ih =>
    simp only [mapOption] at h
    cases hfa : f a with
    | none => rw [hfa] at h; exact Option.noConfusion h
    | some bhd =>
      rw [hfa] at h
      cases hrest : mapOption f as with
      | none => rw [hrest] at h; exact Option.noConfusion h
      | some bs =>
        rw [hrest] at h
        obtain rfl := Option.some.inj h
        simp [ih bs hrest]

theorem find?_mem_name (prov : List Package) (n : String) (p : Package)
    (h : find? prov n = Option.some p) : p ∈ prov ∧ p.name = n := by
  unfold find? at h
  refine ⟨List.mem_of_find?_eq_some h, ?_⟩
  have := List.find?_some h
  exact of_decide_eq_true this

theorem mem_insertDesc (a x : PackageVersion) (l : List PackageVersion) :
    x ∈ insertDesc a l ↔ x = a ∨ x ∈ l := by
  induction l with
  | nil => simp [insertDesc]
  | cons b bs ih =>
    simp only [insertDesc]
    by_cases h : Version.lt a.version b.version
    · rw [if_pos h]
      simp only [List.mem_cons, ih]
      tauto
    · rw [if_neg h]
      simp only [List.mem_cons]

theorem mem_sortDesc (x : PackageVersion) (l : List PackageVersion) :
    x ∈ sortDesc l ↔ x ∈ l := by
  induction l with
  | nil => simp [sortDesc]
  | cons a as ih =>
    simp only [sortDesc, mem_insertDesc, List.mem_cons, ih]

/-! ## Termination measure for the search -/

/-- All names the search can ever select: the synthetic root's plus the
provider packages'. -/
def nameUniverse (prov : List Package) : List String :=
  (rootName :: prov.map Package.name).dedup

/-- How many universe names are not yet selected. -/
def unselCount (prov : List Package) (selected : Sel) : Nat :=
  ((nameUniverse prov).filter (fun n => (dictFind? selected n).isNone)).length

/-- Largest dependency-list length over all releases of the given
packages. -/
def maxDepLen (ps : List Package) : Nat :=
  (ps.map (fun p => (p.releases.map
    (fun r => r.dependencies.length)).foldr max 0)).foldr max 0

theorem le_foldr_max (l : List Nat) (a : Nat) (h : a ∈ l) : a ≤ l.foldr max 0 := by
  induction l with
  | nil => cases h
  | cons x xs ih =>
    cases h with
    | head => exact Nat.le_max_left _ _
    | tail _ hmem => exact Nat.le_trans (ih hmem) (Nat.le_max_right _ _)

theorem depLen_le_maxDepLen (ps : List Package) (p : Package) (hp : p ∈ ps)
    (r : PackageVersion) (hr : r ∈ p.releases) :
    r.dependencies.length ≤ maxDepLen ps := by
  unfold maxDepLen
  have h1 : r.dependencies.length ≤
      (p.releases.map (fun r => r.dependencies.length)).foldr max 0 :=
    le_foldr_max _ _ (List.mem_map_of_mem _ hr)
  exact Nat.le_trans h1 (le_foldr_max _ _ (List.mem_map_of_mem _ hp))

/-- The stack-top weight of the measure: `D` when the next package to be
popped is already selected, else `0`. -/
def topTerm (D : Nat) (stack : List Package) (sel : Sel) : Nat :=
  match stack.getLast? with
  | Option.none => 0
  | Option.some p => if (dictFind? sel p.name).isSome then D else 0

/-- The termination measure of a search state. -/
def phi (prov : List Package) (D : Nat) (stack : List Package) (sel : Sel) : Nat :=
  2 * D * unselCount prov sel + stack.length + topTerm D stack sel

theorem topTerm_le (D : Nat) (stack : List Package) (sel : Sel) :
    topTerm D stack sel ≤ D := by
  unfold topTerm
  split
  · exact Nat.zero_le _
  · split
    · exact Nat.le_refl _
    · exact Nat.zero_le _

theorem unselCount_insert_of_isSome (prov : List Package) (sel : Sel)
    (k : String) (v : PackageVersion) (h : (dictFind? sel k).isSome = true) :
    unselCount prov (dictInsert sel k v) = unselCount prov sel := by
  unfold unselCount
  congr 1
  apply List.filter_congr
  intro n _
  rw [dictFind?_dictInsert]
  by_cases hn : k = n
  · rw [if_pos hn, ← hn]
    cases hfind : dictFind? sel k with
    | none => rw [hfind] at h; exact Bool.noConfusion h
    | some w => rfl
  · rw [if_neg hn]

theorem filter_drop_one (l : List String) (hl : l.Nodup) (k : String)
    (hk : k ∈ l) (P : String → Bool) (hP : P k = true)
    (Q : String → Bool) (hQk : Q k = false)
    (hQ : ∀ n, ¬ n = k → Q n = P n) :
    (l.filter Q).length + 1 = (l.filter P).length := by
  induction l with
  | nil => cases hk
  | cons a as ih =>
    rcases List.nodup_cons.mp hl with ⟨hna, hnd⟩
    cases hk with
    | head =>
      rw [List.filter_cons, List.filter_cons, hP, hQk]
      simp only [if_pos rfl]
      have : as.filter Q = as.filter P := by
        apply List.filter_congr
        intro n hn
        exact hQ n (fun hc => hna (hc ▸ hn))
      rw [this]
      simp
    | tail _ hmem =>
      have hak : ¬ a = k := fun hc => hna (hc ▸ hmem)
      rw [List.filter_cons, List.filter_cons, hQ a hak]
      by_cases hpa : P a = true
      · simp only [hpa, if_pos]
        simp only [List.length_cons]
        have := ih hnd hmem
        omega
      · have hpa' : P a = false := by
          revert hpa
          cases P a <;> simp
        simp only [hpa', Bool.false_eq_true, if_neg, ite_false]
        exact ih hnd hmem

theorem unselCount_insert_of_isNone (prov : List Package) (sel : Sel)
    (k : String) (v : PackageVersion) (hmem : k ∈ nameUniverse prov)
    (h : (dictFind? sel k).isNone = true) :
    unselCount prov (dictInsert sel k v) + 1 = unselCount prov sel := by
  unfold unselCount
  apply filter_drop_one
  · exact List.nodup_dedup _
  · exact hmem
  · exact h
  · rw [dictFind?_dictInsert, if_pos rfl]
    rfl
  · intro n hn
    rw [dictFind?_dictInsert, if_neg (fun hc => hn hc.symm)]

theorem name_mem_universe (prov : List Package) (root : Package)
    (hrn : root.name ∈ nameUniverse prov) (package : Package)
    (h : package = root ∨ package ∈ prov) :
    package.name ∈ nameUniverse prov := by
  cases h with
  | inl h => rw [h]; exact hrn
  | inr h =>
    unfold nameUniverse
    exact List.mem_dedup.mpr
      (List.mem_cons_of_mem _ (List.mem_map_of_mem Package.name h))

theorem topTerm_eq (D : Nat) (stack : List Package) (sel : Sel) (p : Package)
    (h : stack.getLast? = Option.some p) :
    topTerm D stack sel =
      if (dictFind? sel p.name).isSome = true then D else 0 := by
  unfold topTerm
  rw [h]

/-- Per-candidate measure decrease: popping the stack's last `package`
and pushing the found packages for the candidate's not-yet-selected
required dependencies strictly decreases `phi`. -/
theorem phi_step (prov : List Package) (D : Nat) (rest : List Package)
    (package : Package) (sel : Sel) (pkgver : PackageVersion)
    (pushed : List Package)
    (hname : package.name ∈ nameUniverse prov)
    (hp : pushed.length + 1 ≤ D)
    (hpushed : ∀ q ∈ pushed, (dictFind? sel q.name).isNone = true) :
    phi prov D (rest ++ pushed) (dictInsert sel package.name pkgver) + 1 ≤
      phi prov D (rest ++ [package]) sel := by
  have hDpos : 1 ≤ D := Nat.le_trans (Nat.le_add_left 1 pushed.length) hp
  have hlastold : (rest ++ [package]).getLast? = Option.some package := by
    rw [List.getLast?_append_of_ne_nil rest (by simp)]
    rfl
  by_cases hsel : (dictFind? sel package.name).isSome = true
  · -- the popped package is already selected
    have hU : unselCount prov (dictInsert sel package.name pkgver) =
        unselCount prov sel :=
      unselCount_insert_of_isSome prov sel package.name pkgver hsel
    have httold : topTerm D (rest ++ [package]) sel = D := by
      rw [topTerm_eq D _ sel package hlastold, if_pos hsel]
    cases pushed with
    | nil =>
      have htt' := topTerm_le D (rest ++ ([] : List Package))
        (dictInsert sel package.name pkgver)
      unfold phi
      rw [hU, httold]
      simp only [List.length_append, List.length_cons, List.length_nil]
      omega
    | cons q qs =>
      have hnn : q :: qs ≠ [] := by simp
      have hlastnew : (rest ++ q :: qs).getLast? =
          Option.some ((q :: qs).getLast hnn) := by
        rw [List.getLast?_append_of_ne_nil rest hnn,
          List.getLast?_eq_getLast_of_ne_nil hnn]
      have hqn := hpushed _ (List.getLast_mem hnn)
      have hne : ¬ package.name = ((q :: qs).getLast hnn).name := by
        intro hc
        rw [← hc, Option.isNone_iff_eq_none] at hqn
        rw [hqn] at hsel
        exact Bool.noConfusion hsel
      have htt' : topTerm D (rest ++ q :: qs)
          (dictInsert sel package.name pkgver) = 0 := by
        rw [topTerm_eq D _ _ _ hlastnew, dictFind?_dictInsert, if_neg hne,
          Option.isNone_iff_eq_none.mp hqn]
        simp
      unfold phi
      rw [hU, httold, htt']
      simp only [List.length_append, List.length_cons, List.length_nil]
      have hplen : qs.length + 1 + 1 ≤ D := by simpa using hp
      omega
  · -- the popped package is freshly selected
    have hselN : (dictFind? sel package.name).isNone = true := by
      revert hsel
      cases dictFind? sel package.name <;> simp
    have hU : unselCount prov (dictInsert sel package.name pkgver) + 1 =
        unselCount prov sel :=
      unselCount_insert_of_isNone prov sel package.name pkgver hname hselN
    have httold : topTerm D (rest ++ [package]) sel = 0 := by
      rw [topTerm_eq D _ sel package hlastold, if_neg hsel]
    have htt' := topTerm_le D (rest ++ pushed) (dictInsert sel package.name pkgver)
    unfold phi
    rw [httold]
    have h2 : 2 * D * unselCount prov sel =
        2 * D * unselCount prov (dictInsert sel package.name pkgver) + 2 * D := by
      rw [← hU]
      ring
    rw [h2]
    simp only [List.length_append, List.length_cons, List.length_nil]
    omega

/-- The candidate loop is settled whenever every recursive call it can
make is settled. -/
theorem goCands_settles (rec : List Package → Reqs → Sel → SResult Sel)
    (prov rest : List Package) (reqs : Reqs) (sel : Sel) (package : Package)
    (cands : List PackageVersion)
    (h : ∀ pkgver ∈ cands, ∀ pushed,
      pushFinds prov sel pkgver.dependencies = Option.some pushed →
      SResult.isSettled (rec (rest ++ pushed)
        (reqsSetTop (buildLayer reqs pkgver.dependencies :: reqs) package.name
          (fun pv => Version.veq pv.version pkgver.version))
        (dictInsert sel package.name pkgver)) = true) :
    SResult.isSettled (goCands rec prov rest reqs sel package cands) = true := by
  induction cands with
  | nil => rfl
  | cons pkgver more ih =>
    simp only [goCands]
    split
    · -- forward check passed
      split
      · rfl
      · next pushed hpush =>
        split
        · rfl
        · exact ih (fun pv hpv pushed' hpush' => h pv (by simp [hpv]) pushed' hpush')
        · rfl
        · rfl
        · next hres =>
          have hrec := h pkgver (by simp) pushed hpush
          rw [hres] at hrec
          exact absurd hrec (by decide)
    · rfl

/-- With fuel exceeding the measure, the search never runs out of fuel. -/
theorem search_settles (prov : List Package) (root : Package) (D : Nat)
    (hD : maxDepLen (root :: prov) + 1 ≤ D)
    (hrn : root.name ∈ nameUniverse prov) :
    ∀ fuel stack reqs sel,
      (∀ p ∈ stack, p = root ∨ p ∈ prov) →
      phi prov D stack sel < fuel →
      SResult.isSettled (search prov fuel stack reqs sel) = true := by
  intro fuel
  induction fuel with
  | zero =>
    intro stack reqs sel hinv hphi
    exact absurd hphi (Nat.not_lt_zero _)
  | succ fuel ih =>
    intro stack reqs sel hinv hphi
    cases hlast : stack.getLast? with
    | none =>
      simp only [search, hlast]
      by_cases hfa : finalAssert reqs sel = true
      · rw [if_pos hfa]; rfl
      · rw [if_neg hfa]; rfl
    | some package =>
      simp only [search, hlast]
      have hstack : stack.dropLast ++ [package] = stack :=
        List.dropLast_append_getLast? package (Option.mem_def.mpr hlast)
      have hpm : package ∈ stack := by
        rw [← hstack]
        exact List.mem_append_right _ (by simp)
      have hpkg : package = root ∨ package ∈ prov := hinv package hpm
      apply goCands_settles
      intro pkgver hmem pushed hpush
      have hrel : pkgver ∈ package.releases :=
        List.mem_of_mem_filter ((mem_sortDesc _ _).mp hmem)
      apply ih
      · intro q hq
        rcases List.mem_append.mp hq with hq | hq
        · exact hinv q (hstack ▸ List.mem_append_left [package] hq)
        · obtain ⟨dep, _, hfind⟩ :=
            mapOption_mem_right _ _ _ hpush q hq
          exact Or.inr (find?_mem_name prov dep.name q hfind).1
      · have hplen : pushed.length + 1 ≤ D := by
          have h1 : pushed.length =
              (pkgver.dependencies.filter fun dep =>
                Requirement.is_required dep ∧
                  (dictFind? sel dep.name).isNone).length :=
            mapOption_length _ _ _ hpush
          have h2 := List.length_filter_le
            (fun dep => (Requirement.is_required dep ∧
              (dictFind? sel dep.name).isNone : Bool)) pkgver.dependencies
          have h3 := depLen_le_maxDepLen (root :: prov) package
            (by cases hpkg with
              | inl h => rw [h]; exact List.mem_cons_self _ _
              | inr h => exact List.mem_cons_of_mem _ h)
            pkgver hrel
          omega
        have hpushedsel : ∀ q ∈ pushed, (dictFind? sel q.name).isNone = true := by
          intro q hq
          obtain ⟨dep, hdep, hfind⟩ := mapOption_mem_right _ _ _ hpush q hq
          have hcond := List.of_mem_filter hdep
          have hcond' := of_decide_eq_true hcond
          rw [(find?_mem_name prov dep.name q hfind).2]
          exact hcond'.2
        have hstep := phi_step prov D stack.dropLast package sel pkgver pushed
          (name_mem_universe prov root hrn package hpkg) hplen hpushedsel
        rw [hstack] at hstep
        omega

/-! ## Invariants of the search (towards the success postcondition) -/

theorem dictFind?_some_mem {α : Type} (m : List (String × α)) (k : String)
    (v : α) (h : dictFind? m k = Option.some v) : (k, v) ∈ m := by
  induction m with
  | nil => exact Option.noConfusion h
  | cons kv rest ih =>
    simp only [dictFind?] at h
    by_cases hk : kv.1 = k
    · rw [if_pos hk] at h
      obtain rfl := Option.some.inj h
      have hkv : (k, kv.2) = kv := by rw [← hk]
      rw [hkv]
      exact List.mem_cons_self _ _
    · rw [if_neg hk] at h
      exact List.mem_cons_of_mem _ (ih h)

theorem mem_dictInsert {α : Type} (m : List (String × α)) (k : String) (v : α)
    (hnd : (m.map (fun nv => nv.1)).Nodup) (nv : String × α)
    (h : nv ∈ dictInsert m k v) :
    nv = (k, v) ∨ (nv ∈ m ∧ ¬ nv.1 = k) := by
  induction m with
  | nil =>
    simp only [dictInsert, List.mem_singleton] at h
    exact Or.inl h
  | cons kv rest ih =>
    simp only [List.map_cons, List.nodup_cons] at hnd
    obtain ⟨hk1, hnd'⟩ := hnd
    simp only [dictInsert] at h
    by_cases hkk : kv.1 = k
    · rw [if_pos hkk] at h
      cases h with
      | head => exact Or.inl rfl
      | tail _ hmem =>
        refine Or.inr ⟨List.mem_cons_of_mem _ hmem, ?_⟩
        intro hc
        apply hk1
        rw [hkk, ← hc]
        exact List.mem_map_of_mem _ hmem
    · rw [if_neg hkk] at h
      cases h with
      | head => exact Or.inr ⟨List.mem_cons_self _ _, hkk⟩
      | tail _ hmem =>
        rcases ih hnd' hmem with h | ⟨hm, hne⟩
        · exact Or.inl h
        · exact Or.inr ⟨List.mem_cons_of_mem _ hm, hne⟩

theorem dictInsert_keys_nodup {α : Type} (m : List (String × α)) (k : String)
    (v : α) (hnd : (m.map (fun nv => nv.1)).Nodup) :
    ((dictInsert m k v).map (fun nv => nv.1)).Nodup := by
  induction m with
  | nil => simp [dictInsert]
  | cons kv rest ih =>
    simp only [List.map_cons, List.nodup_cons] at hnd
    obtain ⟨hk1, hnd'⟩ := hnd
    simp only [dictInsert]
    by_cases hkk : kv.1 = k
    · rw [if_pos hkk]
      simp only [List.map_cons, List.nodup_cons]
      exact ⟨by rw [← hkk]; exact hk1, hnd'⟩
    · rw [if_neg hkk]
      simp only [List.map_cons, List.nodup_cons]
      refine ⟨?_, ih hnd'⟩
      intro hc
      rcases List.mem_map.mp hc with ⟨nv, hmem, hfst⟩
      rcases mem_dictInsert rest k v hnd' nv hmem with h | ⟨hm, hne⟩
      · rw [h] at hfst
        exact hkk hfst.symm
      · exact hk1 (hfst ▸ List.mem_map_of_mem _ hm)

theorem dictFind?_dictDel_ne {α : Type} (m : List (String × α)) (k k' : String)
    (h : ¬ k' = k) : dictFind? (dictDel m k) k' = dictFind? m k' := by
  induction m with
  | nil => rfl
  | cons kv rest ih =>
    simp only [dictDel]
    by_cases hk : kv.1 = k
    · rw [if_pos hk]
      have hne : ¬ kv.1 = k' := fun hc => h (hc.symm.trans hk)
      simp only [dictFind?]
      rw [if_neg hne]
    · rw [if_neg hk]
      simp only [dictFind?]
      by_cases hkv : kv.1 = k'
      · rw [if_pos hkv, if_pos hkv]
      · rw [if_neg hkv, if_neg hkv]
        exact ih

theorem mem_dictDel {α : Type} (m : List (String × α)) (k : String)
    (nv : String × α) (h : nv ∈ dictDel m k) : nv ∈ m := by
  induction m with
  | nil => exact absurd h (List.not_mem_nil _)
  | cons kv rest ih =>
    simp only [dictDel] at h
    by_cases hk : kv.1 = k
    · rw [if_pos hk] at h
      exact List.mem_cons_of_mem _ h
    · rw [if_neg hk] at h
      cases h with
      | head => exact List.mem_cons_self _ _
      | tail _ hmem => exact List.mem_cons_of_mem _ (ih hmem)

theorem dictDel_sublist {α : Type} (m : List (String × α)) (k : String) :
    (dictDel m k).Sublist m := by
  induction m with
  | nil => exact List.Sublist.refl _
  | cons kv rest ih =>
    simp only [dictDel]
    by_cases hk : kv.1 = k
    · rw [if_pos hk]
      exact List.sublist_cons_of_sublist _ (List.Sublist.refl _)
    · rw [if_neg hk]
      exact List.Sublist.cons₂ _ ih

theorem allDistinct_iff_nodup (l : List String) :
    allDistinct l = true ↔ l.Nodup := by
  induction l with
  | nil => simp [allDistinct]
  | cons x xs ih =>
    simp only [allDistinct, List.nodup_cons]
    by_cases h : xs.contains x = true
    · rw [if_pos h]
      have hx : x ∈ xs := by
        simpa using h
      constructor
      · intro hc
        exact Bool.noConfusion hc
      · intro hand
        exact absurd hx hand.1
    · rw [if_neg h]
      rw [ih]
      constructor
      · intro hnd
        refine ⟨?_, hnd⟩
        intro hmem
        exact h (by simpa using hmem)
      · intro hand
        exact hand.2

theorem rtf_implies_prev (d : Requirement) (f : Pred) (pv : PackageVersion)
    (h : requirement_to_fun d (Option.some f) pv = true) : f pv = true := by
  unfold requirement_to_fun at h
  by_cases hf : f pv = true
  · exact hf
  · rw [if_pos (show prevFails (Option.some f) pv = true by
      simp [prevFails, hf])] at h
    exact Bool.noConfusion h

theorem rtf_name_match (d : Requirement) (prev : Option Pred)
    (pv : PackageVersion) (h : requirement_to_fun d prev pv = true)
    (hname : pv.name = d.name) : vercompOK d pv.version = true := by
  unfold requirement_to_fun at h
  unfold vercompOK
  by_cases hpf : prevFails prev pv = true
  · rw [if_pos hpf] at h
    exact Bool.noConfusion h
  · rw [if_neg hpf, if_neg (not_not_intro hname)] at h
    cases hvc : d.vercomp with
    | none => rfl
    | some vc => rw [hvc] at h; exact h

theorem mapOption_mem_left {α β : Type} (f : α → Option β) (l : List α)
    (l' : List β) (h : mapOption f l = Option.some l') (a : α) (ha : a ∈ l) :
    ∃ b ∈ l', f a = Option.some b := by
  induction l generalizing l' with
  | nil => cases ha
  | cons x xs ih =>
    simp only [mapOption] at h
    cases hfx : f x with
    | none => rw [hfx] at h; exact Option.noConfusion h
    | some b =>
      rw [hfx] at h
      cases hrest : mapOption f xs with
      | none => rw [hrest] at h; exact Option.noConfusion h
      | some bs =>
        rw [hrest] at h
        obtain rfl := Option.some.inj h
        cases ha with
        | head => exact ⟨b, by simp, hfx⟩
        | tail _ hmem =>
          obtain ⟨b', hb', hfb'⟩ := ih bs hrest hmem
          exact ⟨b', by simp [hb'], hfb'⟩

theorem forwardCheck_sound (sel : Sel) (pkgver : PackageVersion)
    (h : forwardCheck sel pkgver = true) (d : Requirement)
    (hd : d ∈ pkgver.dependencies) (w : PackageVersion)
    (hw : dictFind? sel d.name = Option.some w) :
    requirement_to_fun d Option.none w = true := by
  unfold forwardCheck at h
  have := List.all_eq_true.mp h d hd
  rw [hw] at this
  exact this

/-- What `buildLayer` stores for a name: the chained predicate of some
dependency with that name (the last such, but any is enough here). -/
theorem buildLayer_find_spec (reqs : Reqs) (deps : List Requirement)
    (n : String) (g : Pred)
    (h : dictFind? (buildLayer reqs deps) n = Option.some g) :
    ∃ d ∈ deps, d.name = n ∧
      g = requirement_to_fun d (reqsGet reqs d.name) := by
  unfold buildLayer at h
  suffices haux : ∀ (acc : Layer),
      dictFind? (deps.foldl (fun layer dep =>
        dictInsert layer dep.name
          (requirement_to_fun dep (reqsGet reqs dep.name))) acc) n =
        Option.some g →
      (∃ d ∈ deps, d.name = n ∧
        g = requirement_to_fun d (reqsGet reqs d.name)) ∨
      dictFind? acc n = Option.some g by
    rcases haux [] h with hgood | hbad
    · exact hgood
    · exact Option.noConfusion hbad
  clear h
  intro acc
  induction deps generalizing acc with
  | nil =>
    intro h'
    exact Or.inr h'
  | cons d ds ih =>
    intro h'
    simp only [List.foldl_cons] at h'
    rcases ih _ h' with hgood | hacc
    · obtain ⟨d', hd', hn', hg'⟩ := hgood
      exact Or.inl ⟨d', List.mem_cons_of_mem _ hd', hn', hg'⟩
    · rw [dictFind?_dictInsert] at hacc
      by_cases hdn : d.name = n
      · rw [if_pos hdn] at hacc
        exact Or.inl ⟨d, List.mem_cons_self _ _, hdn, (Option.some.inj hacc).symm⟩
      · rw [if_neg hdn] at hacc
        exact Or.inr hacc

/-- A dependency's name is always present in the layer built from its
release's dependency list. -/
theorem buildLayer_find_isSome (reqs : Reqs) (deps : List Requirement)
    (d : Requirement) (hd : d ∈ deps) :
    (dictFind? (buildLayer reqs deps) d.name).isSome = true := by
  unfold buildLayer
  suffices haux : ∀ (acc : Layer),
      (dictFind? acc d.name).isSome = true ∨ d ∈ deps →
      (dictFind? (deps.foldl (fun layer dep =>
        dictInsert layer dep.name
          (requirement_to_fun dep (reqsGet reqs dep.name))) acc) d.name).isSome =
        true by
    exact haux [] (Or.inr hd)
  clear hd
  intro acc
  induction deps generalizing acc with
  | nil =>
    intro h
    rcases h with h | h
    · exact h
    · cases h
  | cons e es ih =>
    intro h
    simp only [List.foldl_cons]
    apply ih
    rcases h with h | h
    · left
      rw [dictFind?_dictInsert]
      by_cases he : e.name = d.name
      · rw [if_pos he]; rfl
      · rw [if_neg he]; exact h
    · cases h with
      | head =>
        left
        rw [dictFind?_dictInsert, if_pos rfl]
        rfl
      | tail _ hmem => exact Or.inr hmem

/-- When the dependency names are pairwise distinct, the layer stores
exactly the chained predicate of the unique dependency with each name. -/
theorem buildLayer_find_nodup (reqs : Reqs) (deps : List Requirement)
    (hnd : (deps.map Requirement.name).Nodup) (d : Requirement)
    (hd : d ∈ deps) :
    dictFind? (buildLayer reqs deps) d.name =
      Option.some (requirement_to_fun d (reqsGet reqs d.name)) := by
  cases hfind : dictFind? (buildLayer reqs deps) d.name with
  | none =>
    have := buildLayer_find_isSome reqs deps d hd
    rw [hfind] at this
    exact Bool.noConfusion this
  | some g =>
    obtain ⟨d', hd', hn', hg'⟩ := buildLayer_find_spec reqs deps d.name g hfind
    have hdd : d' = d :=
      List.inj_on_of_nodup_map hnd hd' hd hn'
    rw [hg', hdd]

/-- First-solution extraction from the candidate loop: an `ok` outcome
comes from some candidate that passed the forward check, found all its
required dependencies' packages, and whose recursion returned `ok`. -/
theorem goCands_ok (rec : List Package → Reqs → Sel → SResult Sel)
    (prov rest : List Package) (reqs : Reqs) (sel : Sel) (package : Package)
    (cands : List PackageVersion) (final : Sel)
    (h : goCands rec prov rest reqs sel package cands = SResult.ok final) :
    ∃ pkgver ∈ cands, ∃ pushed,
      forwardCheck sel pkgver = true ∧
      pushFinds prov sel pkgver.dependencies = Option.some pushed ∧
      rec (rest ++ pushed)
        (reqsSetTop (buildLayer reqs pkgver.dependencies :: reqs) package.name
          (fun pv => Version.veq pv.version pkgver.version))
        (dictInsert sel package.name pkgver) = SResult.ok final := by
  induction cands with
  | nil => exact SResult.noConfusion h
  | cons pkgver more ih =>
    simp only [goCands] at h
    split at h
    · next hfc =>
      split at h
      · exact SResult.noConfusion h
      · next pushed hpush =>
        split at h
        · next s hres =>
          obtain rfl := SResult.ok.inj h
          exact ⟨pkgver, List.mem_cons_self _ _, pushed, hfc, hpush, hres⟩
        · obtain ⟨pv, hpv, pushed', h1, h2, h3⟩ := ih h
          exact ⟨pv, List.mem_cons_of_mem _ hpv, pushed', h1, h2, h3⟩
        · exact SResult.noConfusion h
        · exact SResult.noConfusion h
        · exact SResult.noConfusion h
    · exact SResult.noConfusion h

/-! ### The search invariants -/

/-- Selected entries are keyed by their release's name, with pairwise
distinct keys, and every non-root entry is a release of a provider
package. -/
def SelGood (prov : List Package) (sel : Sel) : Prop :=
  (sel.map (fun nv => nv.1)).Nodup ∧
  ∀ nv ∈ sel, nv.2.name = nv.1 ∧
    (nv.1 = rootName ∨ ∃ p ∈ prov, nv.2 ∈ p.releases)

/-- Every selected name has a current predicate that pins the version of
the selected release (the lock, possibly strengthened by later layers). -/
def LockGood (reqs : Reqs) (sel : Sel) : Prop :=
  ∀ nv ∈ sel, ∃ f, reqsGet reqs nv.1 = Option.some f ∧
    ∀ pv, f pv = true → Version.veq pv.version nv.2.version = true

/-- The three states a required dependency of a selected release can be
in: satisfied by the current selection; pending on the worklist with a
constraint that will enforce it; or a self-dependency pending re-check. -/
def DepState (stack : List Package) (reqs : Reqs) (sel : Sel)
    (n : String) (d : Requirement) : Prop :=
  (∃ w, dictFind? sel d.name = Option.some w ∧ vercompOK d w.version = true) ∨
  (dictFind? sel d.name = Option.none ∧ (∃ p ∈ stack, p.name = d.name) ∧
    ∃ f, reqsGet reqs d.name = Option.some f ∧
      ∀ pv, pv.name = d.name → f pv = true → vercompOK d pv.version = true) ∨
  (d.name = n ∧ ∃ p ∈ stack, p.name = d.name)

/-- All required dependencies of all non-root selected releases are in a
good state. -/
def DepsGood (stack : List Package) (reqs : Reqs) (sel : Sel) : Prop :=
  ∀ nv ∈ sel, ¬ nv.1 = rootName →
    ∀ d ∈ nv.2.dependencies, Requirement.is_required d = true →
      DepState stack reqs sel nv.1 d

/-- One successful candidate step preserves all search invariants. -/
theorem inv_preserved (prov : List Package) (root : Package)
    (hrname : root.name = rootName)
    (hrootwf : ∀ r ∈ root.releases, r.name = rootName)
    (HWF : ∀ p ∈ prov, ∀ r ∈ p.releases, r.name = p.name)
    (HND : ∀ p ∈ prov, ∀ r ∈ p.releases,
      (r.dependencies.map Requirement.name).Nodup)
    (HNR : ∀ p ∈ prov, ∀ r ∈ p.releases, ∀ d ∈ r.dependencies,
      ¬ d.name = rootName)
    (stack : List Package) (reqs : Reqs) (sel : Sel) (package : Package)
    (hlast : stack.getLast? = Option.some package)
    (hstackgood : ∀ p ∈ stack, p = root ∨ p ∈ prov)
    (hselgood : SelGood prov sel) (hlockgood : LockGood reqs sel)
    (hdepsgood : DepsGood stack reqs sel)
    (pkgver : PackageVersion) (hrel : pkgver ∈ package.releases)
    (hpred : ∀ f, reqsGet reqs package.name = Option.some f → f pkgver = true)
    (hfc : forwardCheck sel pkgver = true)
    (pushed : List Package)
    (hpush : pushFinds prov sel pkgver.dependencies = Option.some pushed) :
    SelGood prov (dictInsert sel package.name pkgver) ∧
    LockGood
      (reqsSetTop (buildLayer reqs pkgver.dependencies :: reqs) package.name
        (fun pv => Version.veq pv.version pkgver.version))
      (dictInsert sel package.name pkgver) ∧
    DepsGood (stack.dropLast ++ pushed)
      (reqsSetTop (buildLayer reqs pkgver.dependencies :: reqs) package.name
        (fun pv => Version.veq pv.version pkgver.version))
      (dictInsert sel package.name pkgver) := by
  obtain ⟨hnodup, hsel2⟩ := hselgood
  have hstack_eq : stack.dropLast ++ [package] = stack :=
    List.dropLast_append_getLast? package (Option.mem_def.mpr hlast)
  have hpkg : package = root ∨ package ∈ prov := by
    apply hstackgood
    rw [← hstack_eq]
    exact List.mem_append_right _ (by simp)
  have hpkgname : pkgver.name = package.name := by
    cases hpkg with
    | inl h => rw [h, hrname]; exact hrootwf pkgver (h ▸ hrel)
    | inr h => exact HWF package h pkgver hrel
  have hprovrel : package.name = rootName ∨ ∃ p ∈ prov, pkgver ∈ p.releases := by
    cases hpkg with
    | inl h => exact Or.inl (by rw [h, hrname])
    | inr h => exact Or.inr ⟨package, h, hrel⟩
  -- the new chain map resolves the popped name to the fresh lock …
  have hget_pkg :
      reqsGet (reqsSetTop (buildLayer reqs pkgver.dependencies :: reqs)
          package.name (fun pv => Version.veq pv.version pkgver.version))
        package.name =
      Option.some (fun pv => Version.veq pv.version pkgver.version) := by
    simp only [reqsSetTop, reqsGet]
    rw [dictFind?_dictInsert, if_pos rfl]
  -- … and any other name to the new layer's entry, falling back outward
  have hget_ne : ∀ n, ¬ package.name = n →
      reqsGet (reqsSetTop (buildLayer reqs pkgver.dependencies :: reqs)
          package.name (fun pv => Version.veq pv.version pkgver.version)) n =
      (match dictFind? (buildLayer reqs pkgver.dependencies) n with
        | Option.some g => Option.some g
        | Option.none => reqsGet reqs n) := by
    intro n hne
    simp only [reqsSetTop, reqsGet]
    rw [dictFind?_dictInsert, if_neg hne]
  -- a name other than the popped one keeps (a strengthening of) its
  -- previous constraint
  have himp_ne : ∀ n f, ¬ package.name = n → reqsGet reqs n = Option.some f →
      ∃ f', reqsGet (reqsSetTop (buildLayer reqs pkgver.dependencies :: reqs)
          package.name (fun pv => Version.veq pv.version pkgver.version)) n =
        Option.some f' ∧ ∀ pv, f' pv = true → f pv = true := by
    intro n f hne hget
    cases hfind : dictFind? (buildLayer reqs pkgver.dependencies) n with
    | some g =>
      obtain ⟨d, hd, hdn, hg⟩ :=
        buildLayer_find_spec reqs pkgver.dependencies n g hfind
      refine ⟨g, by rw [hget_ne n hne, hfind], ?_⟩
      intro pv hpv
      rw [hg, hdn, hget] at hpv
      exact rtf_implies_prev d f pv hpv
    | none =>
      refine ⟨f, ?_, fun pv h => h⟩
      rw [hget_ne n hne, hfind]
      exact hget
  refine ⟨⟨dictInsert_keys_nodup sel package.name pkgver hnodup, ?_⟩, ?_, ?_⟩
  · -- SelGood
    intro nv hnv
    rcases mem_dictInsert sel package.name pkgver hnodup nv hnv with h | ⟨hm, _⟩
    · rw [h]
      exact ⟨hpkgname, hprovrel⟩
    · exact hsel2 nv hm
  · -- LockGood
    intro nv hnv
    rcases mem_dictInsert sel package.name pkgver hnodup nv hnv with h | ⟨hm, hne⟩
    · rw [h]
      exact ⟨fun pv => Version.veq pv.version pkgver.version, hget_pkg,
        fun pv h => h⟩
    · obtain ⟨f, hget, hfveq⟩ := hlockgood nv hm
      obtain ⟨f', hget', himp⟩ :=
        himp_ne nv.1 f (fun hc => hne hc.symm) hget
      exact ⟨f', hget', fun pv h => hfveq pv (himp pv h)⟩
  · -- DepsGood
    intro nv hnv hnroot d hd hreq
    rcases mem_dictInsert sel package.name pkgver hnodup nv hnv with hnew | ⟨hm, hne⟩
    · -- the freshly selected release
      rw [hnew] at hnroot hd ⊢
      simp only at hnroot hd ⊢
      have hprov2 : ∃ p ∈ prov, pkgver ∈ p.releases := by
        cases hprovrel with
        | inl h => exact absurd h hnroot
        | inr h => exact h
      obtain ⟨pk, hpk, hpkrel⟩ := hprov2
      have hdnr : ¬ d.name = rootName := HNR pk hpk pkgver hpkrel d hd
      have hdnd : (pkgver.dependencies.map Requirement.name).Nodup :=
        HND pk hpk pkgver hpkrel
      cases hdsel : dictFind? sel d.name with
      | some w0 =>
        have hrtf : requirement_to_fun d Option.none w0 = true :=
          forwardCheck_sound sel pkgver hfc d hd w0 hdsel
        have hw0mem := dictFind?_some_mem sel d.name w0 hdsel
        have hw0name : w0.name = d.name := (hsel2 _ hw0mem).1
        have hw0ok : vercompOK d w0.version = true :=
          rtf_name_match d Option.none w0 hrtf hw0name
        by_cases hdp : d.name = package.name
        · -- self-name: the entry is overwritten by the candidate itself
          obtain ⟨f, hgetf, hfveq⟩ := hlockgood (d.name, w0) hw0mem
          have hfpk : f pkgver = true := by
            apply hpred
            rw [← hdp]
            exact hgetf
          have hveq : Version.veq pkgver.version w0.version = true :=
            hfveq pkgver hfpk
          refine Or.inl ⟨pkgver, ?_, ?_⟩
          · rw [dictFind?_dictInsert, if_pos hdp.symm]
          · rw [vercompOK_congr hveq d]
            exact hw0ok
        · refine Or.inl ⟨w0, ?_, hw0ok⟩
          rw [dictFind?_dictInsert, if_neg (fun hc => hdp hc.symm), hdsel]
      | none =>
        have hdfilt : d ∈ pkgver.dependencies.filter
            (fun dep => (Requirement.is_required dep ∧
              (dictFind? sel dep.name).isNone : Bool)) := by
          apply List.mem_filter.mpr
          refine ⟨hd, ?_⟩
          rw [hreq, hdsel]
          simp
        obtain ⟨q, hq, hfq⟩ := mapOption_mem_left _ _ _ hpush d hdfilt
        have hqprops := find?_mem_name prov d.name q hfq
        by_cases hdp : d.name = package.name
        · -- pending self-dependency
          exact Or.inr (Or.inr ⟨hdp, q, List.mem_append_right _ hq, hqprops.2⟩)
        · refine Or.inr (Or.inl ⟨?_, ⟨q, List.mem_append_right _ hq, hqprops.2⟩, ?_⟩)
          · rw [dictFind?_dictInsert, if_neg (fun hc => hdp hc.symm)]
            exact hdsel
          · refine ⟨requirement_to_fun d (reqsGet reqs d.name), ?_, ?_⟩
            · rw [hget_ne d.name (fun hc => hdp hc.symm),
                buildLayer_find_nodup reqs pkgver.dependencies hdnd d hd]
            · intro pv hpvname hpv
              exact rtf_name_match d (reqsGet reqs d.name) pv hpv hpvname
    · -- a previously selected release
      have hw : nv.2.name = nv.1 := (hsel2 nv hm).1
      have hprov2 : ∃ p ∈ prov, nv.2 ∈ p.releases := by
        rcases (hsel2 nv hm).2 with h | h
        · exact absurd h hnroot
        · exact h
      obtain ⟨pk, hpk, hpkrel⟩ := hprov2
      have hdnr : ¬ d.name = rootName := HNR pk hpk nv.2 hpkrel d hd
      rcases hdepsgood nv hm hnroot d hd hreq with
        ⟨w0, hw0find, hw0ok⟩ | ⟨hnone, ⟨p, hp, hpname⟩, f, hgetf, hfimp⟩ |
        ⟨hdn, p, hp, hpname⟩
      · -- previously satisfied
        by_cases hdp : d.name = package.name
        · obtain ⟨f, hgetf, hfveq⟩ :=
            hlockgood (d.name, w0) (dictFind?_some_mem sel d.name w0 hw0find)
          have hfpk : f pkgver = true := by
            apply hpred
            rw [← hdp]
            exact hgetf
          refine Or.inl ⟨pkgver, ?_, ?_⟩
          · rw [dictFind?_dictInsert, if_pos hdp.symm]
          · rw [vercompOK_congr (hfveq pkgver hfpk) d]
            exact hw0ok
        · refine Or.inl ⟨w0, ?_, hw0ok⟩
          rw [dictFind?_dictInsert, if_neg (fun hc => hdp hc.symm), hw0find]
      · -- previously pending on the worklist
        by_cases hdp : d.name = package.name
        · -- its package is the one just popped: the candidate satisfies it
          have hfpk : f pkgver = true := by
            apply hpred
            rw [← hdp]
            exact hgetf
          refine Or.inl ⟨pkgver, ?_, ?_⟩
          · rw [dictFind?_dictInsert, if_pos hdp.symm]
          · exact hfimp pkgver (hpkgname.trans hdp.symm) hfpk
        · -- still pending
          refine Or.inr (Or.inl ⟨?_, ?_, ?_⟩)
          · rw [dictFind?_dictInsert, if_neg (fun hc => hdp hc.symm)]
            exact hnone
          · refine ⟨p, ?_, hpname⟩
            rw [← hstack_eq] at hp
            rcases List.mem_append.mp hp with h | h
            · exact List.mem_append_left _ h
            · exfalso
              have : p = package := List.mem_singleton.mp h
              rw [this] at hpname
              exact hdp hpname.symm
          · obtain ⟨f', hget', himp⟩ :=
              himp_ne d.name f (fun hc => hdp hc.symm) hgetf
            exact ⟨f', hget', fun pv hn hf' => hfimp pv hn (himp pv hf')⟩
      · -- pending self-dependency of an entry other than the popped name
        have hdp : ¬ d.name = package.name := by
          rw [hdn]
          exact fun hc => hne hc
        refine Or.inr (Or.inr ⟨hdn, ?_⟩)
        refine ⟨p, ?_, hpname⟩
        rw [← hstack_eq] at hp
        rcases List.mem_append.mp hp with h | h
        · exact List.mem_append_left _ h
        · exfalso
          have : p = package := List.mem_singleton.mp h
          rw [this] at hpname
          exact hdp hpname.symm

theorem mem_dictDel_key_ne {α : Type} (m : List (String × α)) (k : String)
    (hnd : (m.map (fun nv => nv.1)).Nodup) (nv : String × α)
    (h : nv ∈ dictDel m k) : ¬ nv.1 = k := by
  induction m with
  | nil => exact absurd h (List.not_mem_nil _)
  | cons kv rest ih =>
    simp only [List.map_cons, List.nodup_cons] at hnd
    obtain ⟨hk1, hnd'⟩ := hnd
    simp only [dictDel] at h
    by_cases hk : kv.1 = k
    · rw [if_pos hk] at h
      intro hc
      apply hk1
      rw [hk, ← hc]
      exact List.mem_map_of_mem _ h
    · rw [if_neg hk] at h
      cases h with
      | head => exact hk
      | tail _ hmem => exact ih hnd' hmem

/-- A successful search yields a selection with distinct keyed names in
which every required dependency of every non-root entry is satisfied by
the final selection itself. -/
theorem search_ok_post (prov : List Package) (root : Package)
    (hrname : root.name = rootName)
    (hrootwf : ∀ r ∈ root.releases, r.name = rootName)
    (HWF : ∀ p ∈ prov, ∀ r ∈ p.releases, r.name = p.name)
    (HND : ∀ p ∈ prov, ∀ r ∈ p.releases,
      (r.dependencies.map Requirement.name).Nodup)
    (HNR : ∀ p ∈ prov, ∀ r ∈ p.releases, ∀ d ∈ r.dependencies,
      ¬ d.name = rootName) :
    ∀ fuel stack reqs sel final,
      (∀ p ∈ stack, p = root ∨ p ∈ prov) →
      SelGood prov sel → LockGood reqs sel → DepsGood stack reqs sel →
      search prov fuel stack reqs sel = SResult.ok final →
      SelGood prov final ∧
      (∀ nv ∈ final, ¬ nv.1 = rootName →
        ∀ d ∈ nv.2.dependencies, Requirement.is_required d = true →
          ∃ w, dictFind? final d.name = Option.some w ∧
            vercompOK d w.version = true) := by
  intro fuel
  induction fuel with
  | zero =>
    intro stack reqs sel final _ _ _ _ h
    exact SResult.noConfusion h
  | succ fuel ih =>
    intro stack reqs sel final hstackgood hselgood hlockgood hdepsgood h
    cases hlast : stack.getLast? with
    | none =>
      have hempty : stack = [] := by
        cases stack with
        | nil => rfl
        | cons a as =>
          rw [List.getLast?_eq_getLast_of_ne_nil (by simp)] at hlast
          exact Option.noConfusion hlast
      simp only [search, hlast] at h
      by_cases hfa : finalAssert reqs sel = true
      · rw [if_pos hfa] at h
        obtain rfl := SResult.ok.inj h
        refine ⟨hselgood, ?_⟩
        intro nv hnv hnroot d hd hreq
        rcases hdepsgood nv hnv hnroot d hd hreq with
          ⟨w, hfind, hok⟩ | ⟨_, ⟨p, hp, _⟩, _⟩ | ⟨_, p, hp, _⟩
        · exact ⟨w, hfind, hok⟩
        · rw [hempty] at hp
          exact absurd hp (List.not_mem_nil _)
        · rw [hempty] at hp
          exact absurd hp (List.not_mem_nil _)
      · rw [if_neg hfa] at h
        exact SResult.noConfusion h
    | some package =>
      simp only [search, hlast] at h
      obtain ⟨pkgver, hmem, pushed, hfc, hpush, hrec⟩ :=
        goCands_ok _ _ _ _ _ _ _ _ h
      have hmem' := (mem_sortDesc _ _).mp hmem
      have hrel : pkgver ∈ package.releases := List.mem_of_mem_filter hmem'
      have hpredholds := List.of_mem_filter hmem'
      have hpred : ∀ f, reqsGet reqs package.name = Option.some f →
          f pkgver = true := by
        intro f hget
        rw [hget] at hpredholds
        exact hpredholds
      have hinv := inv_preserved prov root hrname hrootwf HWF HND HNR
        stack reqs sel package hlast hstackgood hselgood hlockgood hdepsgood
        pkgver hrel hpred hfc pushed hpush
      have hstack_eq : stack.dropLast ++ [package] = stack :=
        List.dropLast_append_getLast? package (Option.mem_def.mpr hlast)
      have hstackgood' : ∀ p ∈ stack.dropLast ++ pushed, p = root ∨ p ∈ prov := by
        intro q hq
        rcases List.mem_append.mp hq with hq | hq
        · exact hstackgood q (hstack_eq ▸ List.mem_append_left [package] hq)
        · obtain ⟨dep, _, hfind⟩ := mapOption_mem_right _ _ _ hpush q hq
          exact Or.inr (find?_mem_name prov dep.name q hfind).1
      exact ih (stack.dropLast ++ pushed) _ _ final hstackgood'
        hinv.1 hinv.2.1 hinv.2.2 hrec

/-- C5 amended: with no duplicate dependency names inside any release of
a provider package, no dependency named `$root`, and releases carrying
their package's name, a successful resolution satisfies the claimed
postcondition. -/
theorem c5_postcondition_amended :
    ∀ (prov : List Package) (fuel : Nat) (roots : List Requirement)
      (S : List PackageVersion),
      (∀ p ∈ prov, ∀ r ∈ p.releases, r.name = p.name) →
      (∀ p ∈ prov, ∀ r ∈ p.releases,
        (r.dependencies.map Requirement.name).Nodup) →
      (∀ p ∈ prov, ∀ r ∈ p.releases, ∀ d ∈ r.dependencies,
        ¬ d.name = rootName) →
      resolve prov fuel roots = SResult.ok S →
      c5Post S = true := by
  intro prov fuel roots S HWF HND HNR h
  simp only [resolve] at h
  cases hsr : search prov fuel
      [mkPackage rootName [(Version.mk [0, 0, 0], roots)]] [[]] [] with
  | ok final =>
    rw [hsr] at h
    obtain rfl := SResult.ok.inj h
    have hpost := search_ok_post prov
      (mkPackage rootName [(Version.mk [0, 0, 0], roots)]) rfl
      (by intro r hr
          simp only [mkPackage, List.map_cons, List.map_nil,
            List.mem_singleton] at hr
          rw [hr])
      HWF HND HNR fuel _ _ _ final
      (by intro p hp
          exact Or.inl (List.mem_singleton.mp hp))
      ⟨by simp, by intro nv hnv; exact absurd hnv (List.not_mem_nil _)⟩
      (by intro nv hnv; exact absurd hnv (List.not_mem_nil _))
      (by intro nv hnv; exact absurd hnv (List.not_mem_nil _))
      hsr
    obtain ⟨⟨hfnodup, hfgood⟩, hsat⟩ := hpost
    unfold c5Post
    rw [Bool.and_eq_true]
    constructor
    · rw [allDistinct_iff_nodup]
      have hmapeq : (dictDel final rootName).map (fun nv => nv.2.name) =
          (dictDel final rootName).map (fun nv => nv.1) := by
        apply List.map_congr_left
        intro nv hnv
        exact (hfgood nv (mem_dictDel final rootName nv hnv)).1
      rw [List.map_map]
      have : (PackageVersion.name ∘ fun nv => nv.2) =
          (fun (nv : String × PackageVersion) => nv.2.name) := rfl
      rw [this, hmapeq]
      exact List.Nodup.sublist (List.Sublist.map _ (dictDel_sublist final rootName))
        hfnodup
    · rw [List.all_eq_true]
      intro v hv
      rw [List.all_eq_true]
      intro d hd
      by_cases hreq : Requirement.is_required d = true
      · rw [if_pos hreq]
        obtain ⟨nv, hnvdel, hnv2⟩ := List.mem_map.mp hv
        have hnvfinal : nv ∈ final := mem_dictDel final rootName nv hnvdel
        have hnroot : ¬ nv.1 = rootName :=
          mem_dictDel_key_ne final rootName hfnodup nv hnvdel
        have hddep : d ∈ nv.2.dependencies := by rw [hnv2]; exact hd
        have hprovrel : ∃ p ∈ prov, nv.2 ∈ p.releases := by
          rcases (hfgood nv hnvfinal).2 with hcontra | hok
          · exact absurd hcontra hnroot
          · exact hok
        obtain ⟨pk, hpk, hpkrel⟩ := hprovrel
        have hdnr : ¬ d.name = rootName := HNR pk hpk nv.2 hpkrel d hddep
        obtain ⟨w, hwfind, hwok⟩ := hsat nv hnvfinal hnroot d hddep hreq
        have hwdel : dictFind? (dictDel final rootName) d.name =
            Option.some w := by
          rw [dictFind?_dictDel_ne final rootName d.name hdnr]
          exact hwfind
        have hwmem : (d.name, w) ∈ dictDel final rootName :=
          dictFind?_some_mem _ _ _ hwdel
        have hwname : w.name = d.name :=
          (hfgood (d.name, w) (mem_dictDel final rootName _ hwmem)).1
        rw [List.any_eq_true]
        refine ⟨w, ?_, ?_⟩
        · exact List.mem_map.mpr ⟨(d.name, w), hwmem, rfl⟩
        · rw [if_pos hwname]
          exact hwok
      · rw [if_neg hreq]
  | inconsistent => rw [hsr] at h; exact SResult.noConfusion h
  | providerError => rw [hsr] at h; exact SResult.noConfusion h
  | assertFailed => rw [hsr] at h; exact SResult.noConfusion h
  | outOfFuel => rw [hsr] at h; exact SResult.noConfusion h

/-- Witness for the amended C5 theorem on the trivial universe. -/
theorem c5_postcondition_amended_witness :
    c5Post [⟨"b", v000, [reqN "a"]⟩, ⟨"a", v000, []⟩] = true :=
  c5_postcondition_amended univTrivial 10 [reqN "b"]
    [⟨"b", v000, [reqN "a"]⟩, ⟨"a", v000, []⟩]
    (by decide) (by decide) (by decide) (by decide)

theorem ordering_ne_gt_iff (o : Ordering) : (¬ o = .gt) ↔ (o = .lt ∨ o = .eq) := by
  cases o <;> simp

theorem ordering_ne_lt_iff (o : Ordering) : (¬ o = .lt) ↔ (o = .gt ∨ o = .eq) := by
  cases o <;> simp

theorem ordering_ne_eq_iff (o : Ordering) : (¬ o = .eq) ↔ (o = .lt ∨ o = .gt) := by
  cases o <;> simp

/-- The two parts tuples of a pair of versions, right-padded with zeros
to their common maximal length (the tuples `Version.__cmp` compares). -/
def padded (a b : Version) : List Int × List Int :=
  (Version.extend a.parts (max a.parts.length b.parts.length),
   Version.extend b.parts (max a.parts.length b.parts.length))

/-! ## Claim theorems (concrete evaluations) -/

/-- C1: the claim says `resolve [a, b]` over `{a@0.0.0 (deps: ! b),
b@0.0.0}` fails with `InconsistentRequirements`.  It does not: the
`INCOMPATIBLE` guard of `is_compatible` reads `req.parse` (the static
parse method) instead of `req.prefix`, never fires, so the code returns
`{a@0.0.0, b@0.0.0}`.  The second half of the claim (roots `[a]` give
`{a@0.0.0}`) does hold. -/
theorem c1_incompatible_roots_eval :
    resolve univIncompat 10 [reqN "a", reqN "b"] =
      SResult.ok [⟨"b", v000, []⟩, ⟨"a", v000, [reqBang "b"]⟩] ∧
    resolve univIncompat 10 [reqN "a"] =
      SResult.ok [⟨"a", v000, [reqBang "b"]⟩] := by decide

/-- C2: the claim says the predicate built from an `INCOMPATIBLE`
requirement rejects every release with the forbidden name.  The code's
predicate accepts such a release (with and without a prior predicate),
because the guard compares `req.parse` — a method — with
`Prefix.INCOMPATIBLE` and is never true. -/
theorem c2_incompatible_predicate_eval :
    requirement_to_fun (reqBang "b") Option.none ⟨"b", v000, []⟩ = true ∧
    requirement_to_fun (reqBang "b") (Option.some fun _ => true) ⟨"b", v000, []⟩ = true := by
  constructor
  · rfl
  · rfl

/-- C3: the claim (and the repository's own
`test_provider_newest_incompatible`) expects `{a@0.0.0, b@0.0.0,
c@0.0.0}`; the code raises `InconsistentRequirements`, because the
forward-check `raise` for `b@1.0.0`'s dependency `c = 1.0.0` sits outside
the per-candidate `try` and escapes the frame before `b@0.0.0` is
tried. -/
theorem c3_backtrack_eval :
    resolve univBacktrack 10 [reqN "a"] = SResult.inconsistent := by decide

/-- C4: completeness fails on the code.  The backtrack universe has the
consistent assignment `{a@0.0.0, b@0.0.0, c@0.0.0}`, yet `resolve [a]`
raises `InconsistentRequirements` (same propagation bug as C3). -/
theorem c4_completeness_eval :
    isSolution univBacktrack [reqN "a"]
      [⟨"a", v000, [reqN "b", reqN "c"]⟩, ⟨"b", v000, []⟩, ⟨"c", v000, []⟩] = true ∧
    resolve univBacktrack 10 [reqN "a"] = SResult.inconsistent := by decide

/-- C5 counterexample: a release with two same-name required
dependencies (`a@0.0.0 (deps: b = 1.0.0, b = 2.0.0)`).  The dict
comprehension building the constraint layer keeps only the last
dependency per name, so `b = 1.0.0` is never enforced: `resolve [a]`
succeeds with `{a@0.0.0, b@2.0.0}`, violating the claimed
postcondition. -/
theorem c5_postcondition_counterexample :
    resolve univDupDeps 10 [reqN "a"] =
      SResult.ok [⟨"a", v000, [reqEq "b" v100, reqEq "b" v200]⟩, ⟨"b", v200, []⟩] ∧
    c5Post [⟨"a", v000, [reqEq "b" v100, reqEq "b" v200]⟩, ⟨"b", v200, []⟩] = false := by
  decide

/-- C6 counterexample: the claim's failure condition flags `+5` (it
contains the non-digit `+`), but `Version.parse` accepts it — Python's
`int` takes an optional sign — returning `Version(5)`. -/
theorem c6_parse_counterexample :
    Version.parse "+5".toList = Option.some ⟨[5]⟩ ∧
    c6ClaimFail "+5".toList = true := by decide

theorem mapOption_eq_none_iff {α β : Type} (f : α → Option β) (l : List α) :
    mapOption f l = Option.none ↔ l.any (fun a => (f a).isNone) = true := by
  induction l with
  | nil => simp [mapOption]
  | cons a as ih =>
    simp only [mapOption, List.any_cons]
    cases hfa : f a with
    | none => simp
    | some b =>
      cases hrest : mapOption f as with
      | none =>
        simp only [Option.isNone_some, Bool.false_or]
        rw [← ih, hrest]
        simp
      | some bs =>
        simp only [Option.isNone_some, Bool.false_or]
        rw [← ih, hrest]
        simp

theorem mapOption_eq_some {α β : Type} (f : α → Option β) (g : α → β)
    (l : List α) (h : ∀ a ∈ l, f a = Option.some (g a)) :
    mapOption f l = Option.some (l.map g) := by
  induction l with
  | nil => rfl
  | cons a as ih =>
    simp only [mapOption]
    rw [h a (by simp), ih (fun x hx => h x (by simp [hx]))]
    rfl

theorem str_to_int_none_iff (p : List Char) :
    str_to_int p = Option.none ↔ c6PieceFail p = true := by
  unfold str_to_int c6PieceFail
  by_cases hs : pyStrip p = p
  · rw [if_neg (fun hc => hc hs), if_pos hs, Bool.false_or]
    cases hpi : pyInt p with
    | none => simp
    | some i =>
      by_cases hr : i < 0 ∨ 65535 < i
      · simp [hr]
      · simp [hr]
  · rw [if_pos hs, if_neg hs, Bool.true_or]
    simp

/-- C6 amended: on ASCII input, `Version.parse` fails exactly when some
piece fails the strip check, the optionally-signed underscore-grouped
digit-run shape, or the `[0, 65535]` range; on every other ASCII input
it returns the parsed integers in order.  The ASCII hypothesis scopes
the statement to the fragment on which the embedding models Python's
`int` exactly (Python additionally accepts Unicode decimal digits and
whitespace). -/
theorem c6_parse_amended :
    ∀ s : List Char, (∀ c ∈ s, isAsciiChar c = true) →
      ((Version.parse s = Option.none) ↔ c6AmendFail s = true) ∧
      (c6AmendFail s = false →
        Version.parse s =
          Option.some ⟨(splitDot s).map (fun p => (str_to_int p).getD 0)⟩) := by
  intro s _hascii
  constructor
  · unfold Version.parse c6AmendFail
    rw [Option.map_eq_none']
    rw [mapOption_eq_none_iff]
    simp only [List.any_eq_true]
    constructor
    · rintro ⟨p, hp, hnone⟩
      exact ⟨p, hp, (str_to_int_none_iff p).mp (Option.isNone_iff_eq_none.mp hnone)⟩
    · rintro ⟨p, hp, hfail⟩
      exact ⟨p, hp, Option.isNone_iff_eq_none.mpr ((str_to_int_none_iff p).mpr hfail)⟩
  · intro hfail
    have hall : ∀ p ∈ splitDot s, str_to_int p = Option.some ((str_to_int p).getD 0) := by
      intro p hp
      have hnf : c6PieceFail p = false := by
        by_contra hcon
        have : c6PieceFail p = true := by
          revert hcon
          cases c6PieceFail p <;> simp
        have : (splitDot s).any c6PieceFail = true :=
          List.any_eq_true.mpr ⟨p, hp, this⟩
        rw [show (splitDot s).any c6PieceFail = c6AmendFail s from rfl] at this
        rw [hfail] at this
        exact Bool.noConfusion this
      have hne : ¬ str_to_int p = Option.none := by
        intro hnone
        have := (str_to_int_none_iff p).mp hnone
        rw [hnf] at this
        exact Bool.noConfusion this
      cases hsti : str_to_int p with
      | none => exact absurd hsti hne
      | some i => simp [hsti]
    unfold Version.parse
    rw [mapOption_eq_some str_to_int (fun p => (str_to_int p).getD 0) _ hall]
    rfl

/-- Witness for the amended C6 theorem at `"1.2.3"`. -/
theorem c6_parse_amended_witness :
    Version.parse "1.2.3".toList = Option.some ⟨[1, 2, 3]⟩ := by
  have h := (c6_parse_amended "1.2.3".toList (by decide)).2 (by decide)
  rw [h]
  decide

/-- C7: all six comparisons of `Version` agree with the lexicographic
comparison of the zero-padded integer tuples; in particular
`Version(1) == Version(1,0) == Version(1,0,0)` and
`Version(1,9) < Version(1,10)`. -/
theorem c7_version_order :
    (∀ a b : Version,
      (Version.lt a b = true ↔ List.Lex (· < ·) (padded a b).1 (padded a b).2) ∧
      (Version.le a b = true ↔
        (List.Lex (· < ·) (padded a b).1 (padded a b).2 ∨ (padded a b).1 = (padded a b).2)) ∧
      (Version.veq a b = true ↔ (padded a b).1 = (padded a b).2) ∧
      (Version.vne a b = true ↔ ¬ (padded a b).1 = (padded a b).2) ∧
      (Version.ge a b = true ↔
        (List.Lex (· < ·) (padded a b).2 (padded a b).1 ∨ (padded a b).1 = (padded a b).2)) ∧
      (Version.gt a b = true ↔ List.Lex (· < ·) (padded a b).2 (padded a b).1)) ∧
    Version.veq ⟨[1]⟩ ⟨[1, 0]⟩ = true ∧ Version.veq ⟨[1, 0]⟩ ⟨[1, 0, 0]⟩ = true ∧
    Version.veq ⟨[1]⟩ ⟨[1, 0, 0]⟩ = true ∧ Version.lt ⟨[1, 9]⟩ ⟨[1, 10]⟩ = true := by
  refine ⟨fun a b => ?_, by decide, by decide, by decide, by decide⟩
  have hc : Version.cmp a b = listCmp (padded a b).1 (padded a b).2 := rfl
  have hlt := listCmp_lt_iff (padded a b).1 (padded a b).2
  have hgt := listCmp_gt_iff (padded a b).1 (padded a b).2
  have heq := listCmp_eq_iff (padded a b).1 (padded a b).2
  refine ⟨?_, ?_, ?_, ?_, ?_, ?_⟩
  · simp only [Version.lt, decide_eq_true_eq, hc, hlt]
  · simp only [Version.le, decide_eq_true_eq, hc, ordering_ne_gt_iff, hlt, heq]
  · simp only [Version.veq, decide_eq_true_eq, hc, heq]
  · simp only [Version.vne, decide_eq_true_eq, hc, ordering_ne_eq_iff, hlt, hgt]
    constructor
    · intro h heqq
      have heqq' := heq.mpr heqq
      cases h with
      | inl h' =>
        have := hlt.mpr h'
        rw [heqq'] at this
        exact absurd this (by decide)
      | inr h' =>
        have := hgt.mpr h'
        rw [heqq'] at this
        exact absurd this (by decide)
    · intro h
      rcases hh : listCmp (padded a b).1 (padded a b).2 with _ | _ | _
      · exact Or.inl (hlt.mp hh)
      · exact absurd (heq.mp hh) h
      · exact Or.inr (hgt.mp hh)
  · simp only [Version.ge, decide_eq_true_eq, hc, ordering_ne_lt_iff, hgt, heq]
  · simp only [Version.gt, decide_eq_true_eq, hc, hgt]

theorem parseCore_incompatible_vercomp (pfx : Pfx) (s0 : List Char)
    (r : Requirement) (hp : Requirement.parseCore pfx s0 = Option.some r)
    (hpfx : r.pfx = Pfx.INCOMPATIBLE) : r.vercomp = Option.none := by
  simp only [Requirement.parseCore] at hp
  split at hp
  · exact Option.noConfusion hp
  · split at hp
    · obtain rfl := Option.some.inj hp
      rfl
    · split at hp
      · exact Option.noConfusion hp
      · split at hp
        · exact Option.noConfusion hp
        · obtain rfl := Option.some.inj hp
          simp only [Requirement.pfx] at hpfx
          simp only [Requirement.vercomp, hpfx, if_pos]

/-- C8: whenever `Requirement.parse` succeeds with prefix
`INCOMPATIBLE`, the resulting requirement has no version comparison,
even when the input text carried one (it is dropped at parse time). -/
theorem c8_incompatible_drops_vercomp :
    ∀ (input : List Char) (r : Requirement),
      Requirement.parse input = Option.some r →
      r.pfx = Pfx.INCOMPATIBLE → r.vercomp = Option.none := by
  intro input r hp hpfx
  simp only [Requirement.parse] at hp
  exact parseCore_incompatible_vercomp _ _ r hp hpfx

/-- Witness for C8 at `"! mod > 1.2.3"`. -/
theorem c8_incompatible_drops_vercomp_witness :
    (Requirement.parse "! mod > 1.2.3".toList =
      Option.some ⟨Pfx.INCOMPATIBLE, "mod", Option.none⟩) ∧
    (⟨Pfx.INCOMPATIBLE, "mod", Option.none⟩ : Requirement).vercomp = Option.none := by
  refine ⟨by decide, ?_⟩
  exact c8_incompatible_drops_vercomp "! mod > 1.2.3".toList
    ⟨Pfx.INCOMPATIBLE, "mod", Option.none⟩ (by decide) (by decide)

/-- C9: for every finite static package universe and every root list the
search runs out of work, not fuel — some fuel settles it (and, by
construction, any larger fuel reaches the same settled result); in
particular the cyclic universe `{a@0.0.0 (deps: b), b@0.0.0 (deps: a)}`
with roots `[a]` terminates with `{a@0.0.0, b@0.0.0}` because an
already-selected package is never re-pushed. -/
theorem c9_termination :
    (∀ (prov : List Package) (roots : List Requirement),
      ∃ fuel, SResult.isSettled (resolve prov fuel roots) = true) ∧
    resolve univCycle 10 [reqN "a"] =
      SResult.ok [⟨"a", v000, [reqN "b"]⟩, ⟨"b", v000, [reqN "a"]⟩] := by
  refine ⟨?_, by decide⟩
  intro prov roots
  refine ⟨phi prov (maxDepLen (mkPackage rootName [(Version.mk [0, 0, 0], roots)] :: prov) + 1)
    [mkPackage rootName [(Version.mk [0, 0, 0], roots)]] [] + 1, ?_⟩
  have hrn : (mkPackage rootName [(Version.mk [0, 0, 0], roots)]).name ∈
      nameUniverse prov := by
    unfold nameUniverse
    exact List.mem_dedup.mpr (List.mem_cons_self _ _)
  have hs := search_settles prov (mkPackage rootName [(Version.mk [0, 0, 0], roots)])
    (maxDepLen (mkPackage rootName [(Version.mk [0, 0, 0], roots)] :: prov) + 1)
    (Nat.le_refl _) hrn
    (phi prov (maxDepLen (mkPackage rootName [(Version.mk [0, 0, 0], roots)] :: prov) + 1)
      [mkPackage rootName [(Version.mk [0, 0, 0], roots)]] [] + 1)
    [mkPackage rootName [(Version.mk [0, 0, 0], roots)]] [[]] []
    (by intro p hp; exact Or.inl (List.mem_singleton.mp hp))
    (Nat.lt_succ_self _)
  simp only [resolve]
  cases hsr : search prov
      (phi prov (maxDepLen (mkPackage rootName [(Version.mk [0, 0, 0], roots)] :: prov) + 1)
        [mkPackage rootName [(Version.mk [0, 0, 0], roots)]] [] + 1)
      [mkPackage rootName [(Version.mk [0, 0, 0], roots)]] [[]] [] with
  | ok s => rfl
  | inconsistent => rfl
  | providerError => rfl
  | assertFailed => rfl
  | outOfFuel =>
    rw [hsr] at hs
    exact absurd hs (by decide)

/-- C10: the claim says a failed lookup makes `Package.get` return the
default and `p[v]` signal the missing version.  In the code `next` is
called without a default, so both raise `StopIteration`; the
`if res is None: return default` branch is dead.  A successful lookup
(length-agnostic version equality) does return the matching release. -/
theorem c10_package_get_eval :
    Package.get (mkPackage "a" [(v000, [])]) ⟨[1, 0, 0]⟩ (Option.some ⟨"d", v000, []⟩) =
      Except.error PyErr.stopIteration ∧
    Package.getitem (mkPackage "a" [(v000, [])]) ⟨[1, 0, 0]⟩ =
      Except.error PyErr.stopIteration ∧
    Package.get (mkPackage "a" [(v000, [])]) ⟨[0, 0]⟩ (Option.some ⟨"d", v000, []⟩) =
      Except.ok (Option.some ⟨"a", v000, []⟩) := ⟨rfl, rfl, rfl⟩

end Resolver
